import Mathlib

/-!
Verification of the tag-propagation content app: a shallow embedding of its
link extractor, tag merge, bounded-concurrency pool, root resolver, crawl
engine and apply engine, with theorems settling the frozen claims.

The JavaScript values that appear in entry fields are modelled by the
inductive type JVal; JS objects become association lists whose order is the
object's key insertion order, and JS Sets become duplicate-free lists kept in
insertion order (insOnce mirrors Set.add).
-/

/-- Insertion into a JS Set: append the element if it is not present yet,
keeping insertion order (mirrors Set.prototype.add). -/
def insOnce (x : String) (xs : List String) : List String :=
  if x ∈ xs then xs else xs ++ [x]

/-- Lookup in a JS object modelled as an association list (first binding of
the key wins; JS object keys are unique). -/
def lookupAssoc {α : Type} (kvs : List (String × α)) (k : String) : Option α :=
  (kvs.find? (fun p => p.1 = k)).map (·.2)

/-- JS Map.set: replace the value in place when the key is present, append
the binding otherwise. -/
def upsert {α : Type} (kvs : List (String × α)) (k : String) (v : α) : List (String × α) :=
  if (kvs.find? (fun p => p.1 = k)).isSome then
    kvs.map (fun p => if p.1 = k then (k, v) else p)
  else kvs ++ [(k, v)]

/-- Whether pat occurs as a contiguous run starting at the head of s. -/
def charsPrefix : List Char → List Char → Bool
  | [], _ => true
  | _ :: _, [] => false
  | p :: ps, c :: cs => p = c && charsPrefix ps cs

/-- Whether pat occurs contiguously anywhere in s. -/
def charsContain (pat : List Char) : List Char → Bool
  | [] => charsPrefix pat []
  | c :: cs => charsPrefix pat (c :: cs) || charsContain pat cs

/-- String.prototype.includes: substring test used on error messages. -/
def strIncludes (s pat : String) : Bool :=
  charsContain pat.data s.data

/-- An element of a metadata.tags array. The sys.id is an Option so that a
malformed element whose id is absent or not a string is representable; the
code filters those out. -/
structure TagLink where
  id : Option String
  deriving Repr, DecidableEq

/-- makeTagLink from the dialog source: builds a Tag link for the given id. -/
def makeTagLink (i : String) : TagLink := { id := some i }

/-- getTagIdsFromMetadata (and the dialog's inline existingIds computation):
map each tag link to its sys.id and keep only non-empty strings. -/
def getTagIdsFromMetadata (tags : List TagLink) : List String :=
  (tags.filterMap (fun t => t.id)).filter (fun s => !(s == ""))

/-- The tag-merge performed by the apply worker (onApply, entries and assets
alike): keep the existing links and append a fresh link for every target id
not already among the existing ids. existingIds is computed once, before the
loop over targetTagIds, exactly as in the source. -/
def mergeTagLinks (existing : List TagLink) (targetTagIds : List String) : List TagLink :=
  let existingIds := getTagIdsFromMetadata existing
  existing ++ (targetTagIds.filter (fun t => !(existingIds.contains t))).map makeTagLink

/-- A JavaScript value as it appears inside entry/asset fields: scalars,
arrays, plain objects (rich text, JSON blobs), and the two typed link shapes
the extractor recognises. An entryLink or assetLink node stands for an
object of the form sys.type = Link with the matching linkType and the given
sys.id; an id that is the empty string stands for a falsy sys.id, which the
isEntryLink and isAssetLink guards reject. -/
inductive JVal where
  | nullv : JVal
  | strv : String → JVal
  | boolv : Bool → JVal
  | numv : Int → JVal
  | arr : List JVal → JVal
  | obj : List (String × JVal) → JVal
  | entryLink : String → JVal
  | assetLink : String → JVal
  deriving Repr

/-- Accumulator of deepExtractLinks: the two JS Sets of discovered ids,
kept as duplicate-free lists in insertion order. -/
structure ExtractOut where
  entryIds : List String
  assetIds : List String
  deriving Repr, DecidableEq

mutual
/-- deepExtractLinks from the sidebar source: typed link nodes contribute
their id and are not descended into, arrays are walked element-wise, objects
are walked value-wise over all keys, scalars are ignored. A link whose id is
the falsy empty string fails the isEntryLink or isAssetLink guard; the
resulting descent into its plain sys object reaches only scalars, so it
contributes nothing, which the guard here mirrors. -/
def deepExtractLinks : JVal → ExtractOut → ExtractOut
  | JVal.nullv, out => out
  | JVal.strv _, out => out
  | JVal.boolv _, out => out
  | JVal.numv _, out => out
  | JVal.entryLink i, out =>
      if i = "" then out else { out with entryIds := insOnce i out.entryIds }
  | JVal.assetLink i, out =>
      if i = "" then out else { out with assetIds := insOnce i out.assetIds }
  | JVal.arr xs, out => deepExtractLinksList xs out
  | JVal.obj kvs, out => deepExtractLinksObj kvs out

/-- Element-wise walk of an array value, left to right. -/
def deepExtractLinksList : List JVal → ExtractOut → ExtractOut
  | [], out => out
  | v :: vs, out => deepExtractLinksList vs (deepExtractLinks v out)

/-- Value-wise walk of an object, in key insertion order. -/
def deepExtractLinksObj : List (String × JVal) → ExtractOut → ExtractOut
  | [], out => out
  | kv :: kvs, out => deepExtractLinksObj kvs (deepExtractLinks kv.2 out)
end

mutual
/-- Nesting height of a JS value: 0 for leaves, one more than the deepest
member for arrays and objects. -/
def jheight : JVal → Nat
  | JVal.arr xs => jheightList xs + 1
  | JVal.obj kvs => jheightObj kvs + 1
  | _ => 0

/-- Largest height among the elements of an array. -/
def jheightList : List JVal → Nat
  | [] => 0
  | v :: vs => max (jheight v) (jheightList vs)

/-- Largest height among the values of an object. -/
def jheightObj : List (String × JVal) → Nat
  | [] => 0
  | kv :: kvs => max (jheight kv.2) (jheightObj kvs)
end

mutual
/-- A depth-ceilinged variant of the extractor: identical to
deepExtractLinks except that descending into an array or object consumes one
unit of fuel, and exhausted fuel aborts the walk with none. An
implementation that bounds its recursion depth by a fixed ceiling c computes
deepExtractLinksFuel c. -/
def deepExtractLinksFuel : Nat → JVal → ExtractOut → Option ExtractOut
  | _, JVal.nullv, out => some out
  | _, JVal.strv _, out => some out
  | _, JVal.boolv _, out => some out
  | _, JVal.numv _, out => some out
  | _, JVal.entryLink i, out =>
      some (if i = "" then out else { out with entryIds := insOnce i out.entryIds })
  | _, JVal.assetLink i, out =>
      some (if i = "" then out else { out with assetIds := insOnce i out.assetIds })
  | 0, JVal.arr _, _ => none
  | c + 1, JVal.arr xs, out => deepExtractLinksListFuel c xs out
  | 0, JVal.obj _, _ => none
  | c + 1, JVal.obj kvs, out => deepExtractLinksObjFuel c kvs out

/-- Fuelled element-wise walk of an array. -/
def deepExtractLinksListFuel (c : Nat) : List JVal → ExtractOut → Option ExtractOut
  | [], out => some out
  | v :: vs, out => (deepExtractLinksFuel c v out).bind (deepExtractLinksListFuel c vs)

/-- Fuelled value-wise walk of an object. -/
def deepExtractLinksObjFuel (c : Nat) : List (String × JVal) → ExtractOut → Option ExtractOut
  | [], out => some out
  | kv :: kvs, out => (deepExtractLinksFuel c kv.2 out).bind (deepExtractLinksObjFuel c kvs)
end

/-- Tower of singleton arrays of the given height with an entry link at the
bottom: nestedArr 0 is the link itself, nestedArr (n+1) wraps one more
array around it. -/
def nestedArr : Nat → JVal
  | 0 => JVal.entryLink "deep"
  | n + 1 => JVal.arr [nestedArr n]

lemma getTagIdsFromMetadata_append (a b : List TagLink) :
    getTagIdsFromMetadata (a ++ b) = getTagIdsFromMetadata a ++ getTagIdsFromMetadata b := by
  simp [getTagIdsFromMetadata, List.filterMap_append, List.filter_append]

lemma getTagIdsFromMetadata_map_make (l : List String) :
    getTagIdsFromMetadata (l.map makeTagLink) = l.filter (fun s => !(s == "")) := by
  simp [getTagIdsFromMetadata, makeTagLink, List.filterMap_map, Function.comp_def]

lemma contains_eq_true_iff (l : List String) (s : String) : l.contains s = true ↔ s ∈ l :=
  List.elem_iff

/-- Ids written by one merge: the existing ids followed by the target ids not
already present, provided every target id is a non-empty string. -/
lemma mergeTagLinks_ids (existing : List TagLink) (tgt : List String)
    (ht : ∀ t ∈ tgt, t ≠ "") :
    getTagIdsFromMetadata (mergeTagLinks existing tgt) =
      getTagIdsFromMetadata existing ++
        tgt.filter (fun t => !((getTagIdsFromMetadata existing).contains t)) := by
  unfold mergeTagLinks
  rw [getTagIdsFromMetadata_append, getTagIdsFromMetadata_map_make]
  congr 1
  apply List.filter_eq_self.mpr
  intro s hs
  have hmem : s ∈ tgt := (List.mem_filter.mp hs).1
  have : s ≠ "" := ht s hmem
  simpa using this

lemma mem_mergeTagLinks_ids (existing : List TagLink) (tgt : List String)
    (ht : ∀ t ∈ tgt, t ≠ "") (s : String) :
    s ∈ getTagIdsFromMetadata (mergeTagLinks existing tgt) ↔
      s ∈ getTagIdsFromMetadata existing ∨ s ∈ tgt := by
  rw [mergeTagLinks_ids existing tgt ht]
  simp only [List.mem_append, List.mem_filter]
  constructor
  · rintro (h | ⟨h, _⟩)
    · exact Or.inl h
    · exact Or.inr h
  · rintro (h | h)
    · exact Or.inl h
    · by_cases hx : s ∈ getTagIdsFromMetadata existing
      · exact Or.inl hx
      · refine Or.inr ⟨h, ?_⟩
        simpa [contains_eq_true_iff] using hx

lemma mergeTagLinks_filter_nil (existing : List TagLink) (tgt : List String)
    (ht : ∀ t ∈ tgt, t ≠ "") :
    tgt.filter
      (fun t => !((getTagIdsFromMetadata (mergeTagLinks existing tgt)).contains t)) = [] := by
  apply List.filter_eq_nil_iff.mpr
  intro t htmem
  have : t ∈ getTagIdsFromMetadata (mergeTagLinks existing tgt) :=
    (mem_mergeTagLinks_ids existing tgt ht t).mpr (Or.inr htmem)
  simpa [contains_eq_true_iff] using this

/-- C4: the apply mutation writes the union keyed by tag id of the existing
tag links with the target tag ids; re-adding a present tag is a no-op, a
second application changes nothing, the written ids are duplicate-free, and
the missing-tag computation against the written tags is empty. Hypotheses:
the target ids are non-empty strings forming a set (duplicate-free), and the
item's existing tag ids are duplicate-free. -/
theorem apply_union_idempotent
    (existing : List TagLink) (tgt : List String)
    (ht : ∀ t ∈ tgt, t ≠ "")
    (hnt : tgt.Nodup)
    (hne : (getTagIdsFromMetadata existing).Nodup) :
    (∀ s, s ∈ getTagIdsFromMetadata (mergeTagLinks existing tgt) ↔
        s ∈ getTagIdsFromMetadata existing ∨ s ∈ tgt) ∧
    mergeTagLinks (mergeTagLinks existing tgt) tgt = mergeTagLinks existing tgt ∧
    (getTagIdsFromMetadata (mergeTagLinks existing tgt)).Nodup ∧
    tgt.filter
      (fun t => !((getTagIdsFromMetadata (mergeTagLinks existing tgt)).contains t)) = [] := by
  refine ⟨mem_mergeTagLinks_ids existing tgt ht, ?_, ?_, mergeTagLinks_filter_nil existing tgt ht⟩
  · conv_lhs => rw [mergeTagLinks]
    rw [mergeTagLinks_filter_nil existing tgt ht]
    simp
  · rw [mergeTagLinks_ids existing tgt ht]
    apply List.Nodup.append hne (hnt.filter _)
    intro s hsA hsB
    have := (List.mem_filter.mp hsB).2
    simp [contains_eq_true_iff] at this
    exact this hsA

/-- Concrete instantiation of apply_union_idempotent: an item already
tagged a receives target set consisting of a and b. -/
theorem apply_union_idempotent_witness :
    ((∀ t ∈ (["a", "b"] : List String), t ≠ "") ∧
     (["a", "b"] : List String).Nodup ∧
     (getTagIdsFromMetadata [makeTagLink "a"]).Nodup) ∧
    ((∀ s, s ∈ getTagIdsFromMetadata (mergeTagLinks [makeTagLink "a"] ["a", "b"]) ↔
        s ∈ getTagIdsFromMetadata [makeTagLink "a"] ∨ s ∈ (["a", "b"] : List String)) ∧
     mergeTagLinks (mergeTagLinks [makeTagLink "a"] ["a", "b"]) ["a", "b"] =
       mergeTagLinks [makeTagLink "a"] ["a", "b"] ∧
     (getTagIdsFromMetadata (mergeTagLinks [makeTagLink "a"] ["a", "b"])).Nodup ∧
     (["a", "b"] : List String).filter
       (fun t =>
         !((getTagIdsFromMetadata (mergeTagLinks [makeTagLink "a"] ["a", "b"])).contains t)) =
       []) :=
  ⟨⟨by decide, by decide, by decide⟩,
   apply_union_idempotent [makeTagLink "a"] ["a", "b"] (by decide) (by decide) (by decide)⟩

lemma nestedArr_fuel_none (c : Nat) (out : ExtractOut) :
    deepExtractLinksFuel c (nestedArr (c + 1)) out = none := by
  induction c generalizing out with
  | zero => simp [nestedArr, deepExtractLinksFuel]
  | succ c ih =>
    show deepExtractLinksFuel (c + 1) (nestedArr (c + 2)) out = none
    have hrw : deepExtractLinksFuel (c + 1) (nestedArr (c + 2)) out =
        (deepExtractLinksFuel c (nestedArr (c + 1)) out).bind
          (deepExtractLinksListFuel c []) := rfl
    rw [hrw, ih]
    rfl

lemma fuel_sufficient :
    ∀ c : Nat, ∀ (v : JVal) (out : ExtractOut), jheight v ≤ c →
      deepExtractLinksFuel c v out = some (deepExtractLinks v out) := by
  intro c
  induction c using Nat.strong_induction_on with
  | _ c ih =>
    intro v out hv
    cases v with
    | nullv => cases c <;> simp [deepExtractLinksFuel, deepExtractLinks]
    | strv s => cases c <;> simp [deepExtractLinksFuel, deepExtractLinks]
    | boolv b => cases c <;> simp [deepExtractLinksFuel, deepExtractLinks]
    | numv n => cases c <;> simp [deepExtractLinksFuel, deepExtractLinks]
    | entryLink i => cases c <;> simp [deepExtractLinksFuel, deepExtractLinks]
    | assetLink i => cases c <;> simp [deepExtractLinksFuel, deepExtractLinks]
    | arr xs =>
      cases c with
      | zero => simp [jheight] at hv
      | succ c' =>
        have hstep : ∀ w out, jheight w ≤ c' →
            deepExtractLinksFuel c' w out = some (deepExtractLinks w out) :=
          ih c' (Nat.lt_succ_self c')
        have hxs : jheightList xs ≤ c' := by
          have : jheightList xs + 1 ≤ c' + 1 := by simpa [jheight] using hv
          omega
        have hlist : ∀ ys, jheightList ys ≤ c' → ∀ out,
            deepExtractLinksListFuel c' ys out = some (deepExtractLinksList ys out) := by
          intro ys
          induction ys with
          | nil => intro _ out; simp [deepExtractLinksListFuel, deepExtractLinksList]
          | cons w ws ihw =>
            intro hys out
            have h1 : jheight w ≤ c' :=
              le_trans (le_max_left _ _) (by simpa [jheightList] using hys)
            have h2 : jheightList ws ≤ c' :=
              le_trans (le_max_right _ _) (by simpa [jheightList] using hys)
            simp [deepExtractLinksListFuel, deepExtractLinksList, hstep w out h1, ihw h2]
        simp [deepExtractLinksFuel, deepExtractLinks, hlist xs hxs out]
    | obj kvs =>
      cases c with
      | zero => simp [jheight] at hv
      | succ c' =>
        have hstep : ∀ w out, jheight w ≤ c' →
            deepExtractLinksFuel c' w out = some (deepExtractLinks w out) :=
          ih c' (Nat.lt_succ_self c')
        have hkvs : jheightObj kvs ≤ c' := by
          have : jheightObj kvs + 1 ≤ c' + 1 := by simpa [jheight] using hv
          omega
        have hobjw : ∀ ys, jheightObj ys ≤ c' → ∀ out,
            deepExtractLinksObjFuel c' ys out = some (deepExtractLinksObj ys out) := by
          intro ys
          induction ys with
          | nil => intro _ out; simp [deepExtractLinksObjFuel, deepExtractLinksObj]
          | cons w ws ihw =>
            intro hys out
            have h1 : jheight w.2 ≤ c' :=
              le_trans (le_max_left _ _) (by simpa [jheightObj] using hys)
            have h2 : jheightObj ws ≤ c' :=
              le_trans (le_max_right _ _) (by simpa [jheightObj] using hys)
            simp [deepExtractLinksObjFuel, deepExtractLinksObj, hstep w.2 out h1, ihw h2]
        simp [deepExtractLinksFuel, deepExtractLinks, hobjw kvs hkvs out]

/-- C9 (amended): the link extractor terminates on every finite tree value
because its recursion is structural; the recursion depth it needs equals the
input's nesting height, so a fuel budget of jheight v always completes the
walk with the unbounded extractor's exact result. -/
theorem deepExtractLinks_terminates_by_height (v : JVal) (out : ExtractOut) :
    deepExtractLinksFuel (jheight v) v out = some (deepExtractLinks v out) :=
  fuel_sufficient (jheight v) v out le_rfl

/-- C9 counterexample: the extractor does not bound its own recursion depth
with a fixed ceiling — for every candidate ceiling c, the walk on the input
nestedArr (c+1) must descend deeper than c, so no ceiling-bounded variant
agrees with it on all inputs. -/
theorem deepExtractLinks_no_fixed_ceiling :
    ¬ ∃ c : Nat, ∀ (v : JVal) (out : ExtractOut),
        deepExtractLinksFuel c v out = some (deepExtractLinks v out) := by
  rintro ⟨c, h⟩
  have h1 := h (nestedArr (c + 1)) ⟨[], []⟩
  rw [nestedArr_fuel_none] at h1
  exact Option.noConfusion h1

/-- Status of one runner spawned by promisePool: still looping, resolved
after seeing an exhausted cursor, or rejected because its awaited worker
call rejected. -/
inductive RunnerStatus where
  | running : RunnerStatus
  | doneOk : RunnerStatus
  | doneErr : RunnerStatus
  deriving Repr, DecidableEq

/-- Shared state of a promisePool execution: the shared cursor idx, the
status of every runner, and the indices claimed so far in claim order. -/
structure PoolState where
  idx : Nat
  runners : List RunnerStatus
  claimed : List Nat
  deriving Repr, DecidableEq

/-- Initial pool state: Math.max(1, concurrency) runners, cursor at 0,
nothing claimed. -/
def poolInit (concurrency : Nat) : PoolState :=
  { idx := 0
    runners := List.replicate (max 1 concurrency) RunnerStatus.running
    claimed := [] }

/-- One scheduling turn of runner r, one iteration of the runner loop in
promisePool. The idx < items.length test and the claim idx++ are synchronous
JavaScript, hence atomic; awaiting the worker yields to the scheduler, which
the interleaving of turns models. A worker that resolves leaves the runner
running for its next iteration; a worker that rejects makes that runner's
async function reject, so it claims nothing further and Promise.all will
reject; an exhausted cursor resolves the runner. A turn given to a settled
or out-of-range runner does nothing. -/
def poolStep {T E : Type} (items : List T) (worker : T → Except E Unit)
    (s : PoolState) (r : Nat) : PoolState :=
  match s.runners.get? r with
  | some RunnerStatus.running =>
    if h : s.idx < items.length then
      let s' : PoolState :=
        { s with idx := s.idx + 1, claimed := s.claimed ++ [s.idx] }
      match worker (items.get ⟨s.idx, h⟩) with
      | Except.ok _ => s'
      | Except.error _ => { s' with runners := s'.runners.set r RunnerStatus.doneErr }
    else { s with runners := s.runners.set r RunnerStatus.doneOk }
  | _ => s

/-- A promisePool execution under an arbitrary scheduler: fold the given
turn order over the initial state. -/
def poolRun {T E : Type} (items : List T) (concurrency : Nat)
    (worker : T → Except E Unit) (sched : List Nat) : PoolState :=
  sched.foldl (poolStep items worker) (poolInit concurrency)

/-- Every runner promise has settled, so the awaited Promise.all has too. -/
def poolSettled (s : PoolState) : Bool :=
  s.runners.all (fun r => !(r == RunnerStatus.running))

/-- Promise.all, and with it promisePool, rejects exactly when some runner's
async function rejected. -/
def poolRejected (s : PoolState) : Bool :=
  s.runners.any (fun r => r == RunnerStatus.doneErr)

/-- A worker that rejects on item 0 and resolves on every other item. -/
def rejectOnZero : Nat → Except Unit Unit :=
  fun x => if x = 0 then Except.error () else Except.ok ()

/-- C2 counterexample: with items 0 and 1, concurrency 1 and a worker that
rejects on item 0, the pool itself rejects and item 1 is never claimed by
any runner, even though the scheduler keeps offering turns — the rejection
killed the only runner, so processing of the remaining item was aborted. -/
theorem promisePool_rejection_counterexample :
    poolRejected (poolRun [0, 1] 1 rejectOnZero [0, 0, 0]) = true ∧
    poolSettled (poolRun [0, 1] 1 rejectOnZero [0, 0, 0]) = true ∧
    (poolRun [0, 1] 1 rejectOnZero [0, 0, 0]).claimed = [0] := by
  refine ⟨?_, ?_, ?_⟩ <;> rfl

/-- Invariant of a pool execution whose worker never rejects: the claimed
indices are exactly 0 .. idx-1 in order, the cursor never passes the end,
no runner has rejected, a resolved runner means the cursor was exhausted,
and the runner count is Math.max(1, concurrency). -/
def PoolInv {T : Type} (items : List T) (concurrency : Nat) (s : PoolState) : Prop :=
  s.claimed = List.range s.idx ∧
  s.idx ≤ items.length ∧
  (∀ r ∈ s.runners, r ≠ RunnerStatus.doneErr) ∧
  ((∃ r ∈ s.runners, r = RunnerStatus.doneOk) → s.idx = items.length) ∧
  s.runners.length = max 1 concurrency

lemma poolStep_inv {T E : Type} (items : List T) (concurrency : Nat)
    (worker : T → Except E Unit) (hw : ∀ t, worker t = Except.ok ())
    (s : PoolState) (r : Nat) (hs : PoolInv items concurrency s) :
    PoolInv items concurrency (poolStep items worker s r) := by
  obtain ⟨hclaim, hle, herr, hok, hlen⟩ := hs
  unfold poolStep
  cases hg : s.runners.get? r with
  | none => exact ⟨hclaim, hle, herr, hok, hlen⟩
  | some st =>
    cases st with
    | doneOk => exact ⟨hclaim, hle, herr, hok, hlen⟩
    | doneErr => exact ⟨hclaim, hle, herr, hok, hlen⟩
    | running =>
      by_cases h : s.idx < items.length
      · simp only [dif_pos h, hw (items.get ⟨s.idx, h⟩)]
        refine ⟨?_, h, herr, ?_, hlen⟩
        · simpa [List.range_succ] using congrArg (fun l => l ++ [s.idx]) hclaim
        · intro hex
          exact absurd (hok hex) (Nat.ne_of_lt h)
      · simp only [dif_neg h]
        have hidx : s.idx = items.length := Nat.le_antisymm hle (Nat.le_of_not_lt h)
        refine ⟨hclaim, hle, ?_, fun _ => hidx, by simpa using hlen⟩
        intro x hx
        rcases List.mem_or_eq_of_mem_set hx with hx' | hx'
        · exact herr x hx'
        · subst hx'; intro hc; exact RunnerStatus.noConfusion hc

lemma poolRun_inv {T E : Type} (items : List T) (concurrency : Nat)
    (worker : T → Except E Unit) (hw : ∀ t, worker t = Except.ok ())
    (sched : List Nat) :
    PoolInv items concurrency (poolRun items concurrency worker sched) := by
  have hinit : PoolInv items concurrency (poolInit concurrency) := by
    refine ⟨rfl, Nat.zero_le _, ?_, ?_, by simp [poolInit]⟩
    · intro x hx
      rw [List.eq_of_mem_replicate hx]
      intro hc; exact RunnerStatus.noConfusion hc
    · rintro ⟨x, hx, hx'⟩
      rw [List.eq_of_mem_replicate hx] at hx'
      exact RunnerStatus.noConfusion hx'
  unfold poolRun
  have hfold : ∀ (turns : List Nat) (s : PoolState), PoolInv items concurrency s →
      PoolInv items concurrency (turns.foldl (poolStep items worker) s) := by
    intro turns
    induction turns with
    | nil => intro s hsi; exact hsi
    | cons a as ih =>
      intro s hsi
      rw [List.foldl_cons]
      exact ih _ (poolStep_inv items concurrency worker hw s a hsi)
  exact hfold sched _ hinit

/-- C2 (amended): when the worker never rejects — per the contract, workers
catch their own errors and encode them in their per-item result — every
settled execution of promisePool, under every scheduler, every concurrency
and every item list, has rejected nothing, and the runners have collectively
claimed every item exactly once, in cursor order. When a worker does reject,
the pool itself rejects and the rejecting runner stops claiming items, as
the counterexample shows. -/
theorem promisePool_total_worker_processes_all {T E : Type}
    (items : List T) (concurrency : Nat) (worker : T → Except E Unit)
    (sched : List Nat)
    (hw : ∀ t, worker t = Except.ok ())
    (hs : poolSettled (poolRun items concurrency worker sched) = true) :
    poolRejected (poolRun items concurrency worker sched) = false ∧
    (poolRun items concurrency worker sched).claimed = List.range items.length := by
  obtain ⟨hclaim, hle, herr, hok, hlen⟩ :=
    poolRun_inv items concurrency worker hw sched
  set s := poolRun items concurrency worker sched with hdef
  have hrej : poolRejected s = false := by
    unfold poolRejected
    rw [List.any_eq_false]
    intro x hx
    have := herr x hx
    simpa using this
  refine ⟨hrej, ?_⟩
  have hne : s.runners ≠ [] := by
    intro hemp
    rw [hemp] at hlen
    simp at hlen
    omega
  obtain ⟨r0, hr0⟩ := List.exists_mem_of_ne_nil s.runners hne
  have hnr : r0 ≠ RunnerStatus.running := by
    unfold poolSettled at hs
    rw [List.all_eq_true] at hs
    have := hs r0 hr0
    simpa using this
  have hner : r0 ≠ RunnerStatus.doneErr := herr r0 hr0
  have hr0ok : r0 = RunnerStatus.doneOk := by
    cases r0 with
    | running => exact absurd rfl hnr
    | doneOk => rfl
    | doneErr => exact absurd rfl hner
  have hidx : s.idx = items.length := hok ⟨r0, hr0, hr0ok⟩
  rw [hclaim, hidx]

/-- Concrete instantiation of promisePool_total_worker_processes_all: two
items, two runners, an always-resolving worker, and a scheduler that gives
each runner turns until both settle. -/
theorem promisePool_total_worker_witness :
    poolSettled (poolRun [10, 20] 2 (fun _ : Nat => (Except.ok () : Except Unit Unit))
        [0, 1, 0, 1]) = true ∧
    (poolRejected (poolRun [10, 20] 2 (fun _ : Nat => (Except.ok () : Except Unit Unit))
        [0, 1, 0, 1]) = false ∧
     (poolRun [10, 20] 2 (fun _ : Nat => (Except.ok () : Except Unit Unit))
        [0, 1, 0, 1]).claimed = List.range 2) :=
  ⟨rfl, promisePool_total_worker_processes_all [10, 20] 2 _ [0, 1, 0, 1]
    (fun _ => rfl) rfl⟩

/-- Adding one page of query results to a JS Set of ids: each item's sys.id
is added when truthy (the empty string models a falsy id, skipped). -/
def addIds (items : List String) (acc : List String) : List String :=
  items.foldl (fun a i => if i = "" then a else insOnce i a) acc

/-- Outcome of the pagination loops inside findRootPagesForLocation: the two
accumulated id sets (the call-wide root set and the per-content-type set), a
propagated query failure, or exhausted model fuel. -/
inductive PagedAcc where
  | ok : List String → List String → PagedAcc
  | err : String → PagedAcc
  | fuelOut : PagedAcc
  deriving Repr, DecidableEq

/-- The inner while loop of findRootPagesForLocation for one (content type,
link field) combination: query a page at the current skip; a failure whose
message includes the string No field with id is swallowed by breaking out (a
Contentful 422 for a nonexistent field); any other failure propagates; an
empty page breaks before accumulating; a short page accumulates then breaks;
a full page accumulates and advances skip by limit. The query function is
already parameterized by the anchor location id. -/
def comboLoop (q : String → String → Nat → Except String (List String))
    (ct f : String) (limit : Nat) :
    Nat → Nat → List String → List String → PagedAcc
  | 0, _, _, _ => PagedAcc.fuelOut
  | fuel + 1, skip, rootIds, ctIds =>
    match q ct f skip with
    | Except.error msg =>
        if strIncludes msg "No field with id" then PagedAcc.ok rootIds ctIds
        else PagedAcc.err msg
    | Except.ok items =>
        if items.length = 0 then PagedAcc.ok rootIds ctIds
        else
          let rootIds' := addIds items rootIds
          let ctIds' := addIds items ctIds
          if items.length < limit then PagedAcc.ok rootIds' ctIds'
          else comboLoop q ct f limit fuel (skip + limit) rootIds' ctIds'

/-- The loop over locationLinkFieldIds for one content type, threading the
two accumulators; the first propagated failure or fuel exhaustion aborts. -/
def fieldsLoop (q : String → String → Nat → Except String (List String))
    (ct : String) (limit fuel : Nat) :
    List String → List String → List String → PagedAcc
  | [], rootIds, ctIds => PagedAcc.ok rootIds ctIds
  | f :: fs, rootIds, ctIds =>
    match comboLoop q ct f limit fuel 0 rootIds ctIds with
    | PagedAcc.ok rootIds' ctIds' => fieldsLoop q ct limit fuel fs rootIds' ctIds'
    | e => e

/-- Outcome of findRootPagesForLocation: the deduplicated union of root ids
together with the per-content-type counts, a propagated failure, or
exhausted model fuel. -/
inductive RootsRes where
  | ok : List String → List (String × Nat) → RootsRes
  | err : String → RootsRes
  | fuelOut : RootsRes
  deriving Repr, DecidableEq

/-- The loop over rootContentTypes: each content type starts a fresh
per-type set, runs all field combinations, and records the per-type count. -/
def ctsLoop (q : String → String → Nat → Except String (List String))
    (fieldIds : List String) (limit fuel : Nat) :
    List String → List String → List (String × Nat) → RootsRes
  | [], rootIds, per => RootsRes.ok rootIds per
  | ct :: cts, rootIds, per =>
    match fieldsLoop q ct limit fuel fieldIds rootIds [] with
    | PagedAcc.ok rootIds' ctIds' =>
        ctsLoop q fieldIds limit fuel cts rootIds' (upsert per ct ctIds'.length)
    | PagedAcc.err m => RootsRes.err m
    | PagedAcc.fuelOut => RootsRes.fuelOut

/-- findRootPagesForLocation from the sidebar source: for every root content
type and every location link field, page through the query for records whose
field links to the anchor, with page size 100, accumulating the
deduplicated union of root ids and the per-content-type counts. -/
def findRootPagesForLocation (q : String → String → Nat → Except String (List String))
    (rootContentTypes locationLinkFieldIds : List String) (fuel : Nat) : RootsRes :=
  ctsLoop q locationLinkFieldIds 100 fuel rootContentTypes [] []

lemma comboLoop_succ (q : String → String → Nat → Except String (List String))
    (ct f : String) (limit fuel skip : Nat) (rootIds ctIds : List String) :
    comboLoop q ct f limit (fuel + 1) skip rootIds ctIds =
      match q ct f skip with
      | Except.error msg =>
          if strIncludes msg "No field with id" then PagedAcc.ok rootIds ctIds
          else PagedAcc.err msg
      | Except.ok items =>
          if items.length = 0 then PagedAcc.ok rootIds ctIds
          else if items.length < limit then
            PagedAcc.ok (addIds items rootIds) (addIds items ctIds)
          else comboLoop q ct f limit fuel (skip + limit)
            (addIds items rootIds) (addIds items ctIds) := rfl

lemma fieldsLoop_cons (q : String → String → Nat → Except String (List String))
    (ct : String) (limit fuel : Nat) (f : String) (fs rootIds ctIds : List String) :
    fieldsLoop q ct limit fuel (f :: fs) rootIds ctIds =
      match comboLoop q ct f limit fuel 0 rootIds ctIds with
      | PagedAcc.ok rootIds' ctIds' => fieldsLoop q ct limit fuel fs rootIds' ctIds'
      | e => e := rfl

lemma ctsLoop_cons (q : String → String → Nat → Except String (List String))
    (fieldIds : List String) (limit fuel : Nat) (ct : String) (cts rootIds : List String)
    (per : List (String × Nat)) :
    ctsLoop q fieldIds limit fuel (ct :: cts) rootIds per =
      match fieldsLoop q ct limit fuel fieldIds rootIds [] with
      | PagedAcc.ok rootIds' ctIds' =>
          ctsLoop q fieldIds limit fuel cts rootIds' (upsert per ct ctIds'.length)
      | PagedAcc.err m => RootsRes.err m
      | PagedAcc.fuelOut => RootsRes.fuelOut := rfl

/-- C8: for every (root content type, location link field) combination, a
query failure whose message carries the No field with id condition is
swallowed as zero matches for that combination; any other query failure
propagates out of the root resolver; pagination continues exactly while a
page returns a full limit of results, stops after accumulating a short
page, and stops without accumulating on an empty page. -/
theorem findRootPages_unknown_field_and_pagination
    (q : String → String → Nat → Except String (List String))
    (ct f : String) (limit fuel skip : Nat) (rootIds ctIds : List String) :
    (∀ msg, q ct f skip = Except.error msg →
      strIncludes msg "No field with id" = true →
      comboLoop q ct f limit (fuel + 1) skip rootIds ctIds = PagedAcc.ok rootIds ctIds) ∧
    (∀ msg, q ct f skip = Except.error msg →
      strIncludes msg "No field with id" = false →
      comboLoop q ct f limit (fuel + 1) skip rootIds ctIds = PagedAcc.err msg) ∧
    (∀ msg cts fs, q ct f 0 = Except.error msg →
      strIncludes msg "No field with id" = false →
      findRootPagesForLocation q (ct :: cts) (f :: fs) (fuel + 1) = RootsRes.err msg) ∧
    (∀ items, q ct f skip = Except.ok items → items ≠ [] → items.length = limit →
      comboLoop q ct f limit (fuel + 1) skip rootIds ctIds =
        comboLoop q ct f limit fuel (skip + limit) (addIds items rootIds) (addIds items ctIds)) ∧
    (∀ items, q ct f skip = Except.ok items → items ≠ [] → items.length < limit →
      comboLoop q ct f limit (fuel + 1) skip rootIds ctIds =
        PagedAcc.ok (addIds items rootIds) (addIds items ctIds)) ∧
    (q ct f skip = Except.ok [] →
      comboLoop q ct f limit (fuel + 1) skip rootIds ctIds = PagedAcc.ok rootIds ctIds) := by
  refine ⟨?_, ?_, ?_, ?_, ?_, ?_⟩
  · intro msg hq hm
    rw [comboLoop_succ, hq]
    simp [hm]
  · intro msg hq hm
    rw [comboLoop_succ, hq]
    simp [hm]
  · intro msg cts fs hq hm
    have hcombo : comboLoop q ct f 100 (fuel + 1) 0 [] [] = PagedAcc.err msg := by
      rw [comboLoop_succ, hq]
      simp [hm]
    unfold findRootPagesForLocation
    rw [ctsLoop_cons, fieldsLoop_cons, hcombo]
  · intro items hq hne hfull
    rw [comboLoop_succ, hq]
    have hlen : ¬(items.length = 0) := by simpa using hne
    have hnlt : ¬(items.length < limit) := by rw [hfull]; exact lt_irrefl _
    simp [hlen, hnlt]
  · intro items hq hne hshort
    rw [comboLoop_succ, hq]
    have hlen : ¬(items.length = 0) := by simpa using hne
    simp [hlen, hshort]
  · intro hq
    rw [comboLoop_succ, hq]
    simp

/-- Repository stub for the witness: the field missing does not exist (422
with the No field with id message), the field broken fails differently, any
other field returns a full page of two ids at skip 0 and a short page after
that. -/
def sampleRootsQuery : String → String → Nat → Except String (List String) :=
  fun _ f skip =>
    if f = "missing" then Except.error "No field with id missing"
    else if f = "broken" then Except.error "server exploded"
    else if skip = 0 then Except.ok ["r1", "r2"]
    else Except.ok ["r3"]

/-- Concrete instantiation of findRootPages_unknown_field_and_pagination on
sampleRootsQuery with page size 2: the unknown-field failure is swallowed,
the other failure propagates out of findRootPagesForLocation, the full first
page continues pagination, and the short second page stops it. -/
theorem findRootPages_unknown_field_and_pagination_witness :
    comboLoop sampleRootsQuery "page" "missing" 2 3 0 [] [] = PagedAcc.ok [] [] ∧
    comboLoop sampleRootsQuery "page" "broken" 2 3 0 [] [] =
      PagedAcc.err "server exploded" ∧
    findRootPagesForLocation sampleRootsQuery ["page"] ["broken"] 3 =
      RootsRes.err "server exploded" ∧
    comboLoop sampleRootsQuery "page" "location" 2 3 0 [] [] =
      comboLoop sampleRootsQuery "page" "location" 2 2 2
        (addIds ["r1", "r2"] []) (addIds ["r1", "r2"] []) ∧
    comboLoop sampleRootsQuery "page" "location" 2 2 2
        (addIds ["r1", "r2"] []) (addIds ["r1", "r2"] []) =
      PagedAcc.ok (addIds ["r3"] (addIds ["r1", "r2"] []))
        (addIds ["r3"] (addIds ["r1", "r2"] [])) :=
  ⟨(findRootPages_unknown_field_and_pagination sampleRootsQuery "page" "missing"
      2 2 0 [] []).1 _ rfl (by decide),
   (findRootPages_unknown_field_and_pagination sampleRootsQuery "page" "broken"
      2 2 0 [] []).2.1 _ rfl (by decide),
   (findRootPages_unknown_field_and_pagination sampleRootsQuery "page" "broken"
      2 2 0 [] []).2.2.1 _ [] [] rfl (by decide),
   (findRootPages_unknown_field_and_pagination sampleRootsQuery "page" "location"
      2 2 0 [] []).2.2.2.1 _ rfl (by decide) rfl,
   (findRootPages_unknown_field_and_pagination sampleRootsQuery "page" "location"
      2 1 2 (addIds ["r1", "r2"] []) (addIds ["r1", "r2"] [])).2.2.2.2.1 _ rfl
      (by decide) (by decide)⟩

/-- Per-collection tally kept by onApply in the dialog. -/
structure Tally where
  selected : Nat
  updated : Nat
  republished : Nat
  skippedExcluded : Nat
  skippedAlreadyOk : Nat
  failed : Nat
  deriving Repr, DecidableEq

/-- A content inventory row as handed to the dialog: willAdd means the row
was not excluded and had missing tags, alreadyOk means it was not excluded
and had none. -/
structure ContentRow where
  id : String
  title : String
  contentType : String
  excluded : Bool
  willAdd : Bool
  alreadyOk : Bool
  deriving Repr, DecidableEq

/-- A media inventory row as handed to the dialog. -/
structure MediaRow where
  id : String
  title : String
  excluded : Bool
  willAdd : Bool
  alreadyOk : Bool
  deriving Repr, DecidableEq

/-- The remote state an apply worker sees when it freshly fetches its item:
the current metadata.tags array and whether sys.publishedVersion is set. -/
structure EntityState where
  tags : List TagLink
  published : Bool
  deriving Repr, DecidableEq

/-- Behaviour of the repository calls for one item during apply: fetch is
none when the get call rejects; updateOk and publishOk are false when the
corresponding mutation call rejects. -/
structure ItemCalls where
  fetch : Option EntityState
  updateOk : Bool
  publishOk : Bool
  deriving Repr, DecidableEq

/-- The try/catch/finally body of the apply worker for one dispatched id,
acting on the running tally. An excluded row is skipped without network
access. Otherwise: a rejected fetch or update is caught and tallied failed;
a successful update increments updated; then, only if preserve is on and
the freshly fetched item was published, the worker republishes — and a
rejected publish is caught by the same catch, tallying failed for an item
already tallied updated. -/
def applyItemTally (preserve : Bool) (rowExcluded : Bool) (io : ItemCalls) (t : Tally) : Tally :=
  if rowExcluded then { t with skippedExcluded := t.skippedExcluded + 1 }
  else
    match io.fetch with
    | none => { t with failed := t.failed + 1 }
    | some ent =>
      if !io.updateOk then { t with failed := t.failed + 1 }
      else
        let t1 := { t with updated := t.updated + 1 }
        if preserve && ent.published then
          if io.publishOk then { t1 with republished := t1.republished + 1 }
          else { t1 with failed := t1.failed + 1 }
        else t1

/-- The row?.excluded test of the worker: the row looked up in the id map,
with a missing row giving the falsy undefined. -/
def contentRowExcluded (rows : List ContentRow) (i : String) : Bool :=
  match rows.find? (fun r => r.id = i) with
  | some r => r.excluded
  | none => false

/-- The row?.excluded test of the media worker. -/
def mediaRowExcluded (rows : List MediaRow) (i : String) : Bool :=
  match rows.find? (fun r => r.id = i) with
  | some r => r.excluded
  | none => false

/-- One collection's pool run during apply: the tally starts with selected
set to the dispatched count and all counters zero, then every dispatched id
is processed. The pool's four workers interleave, but each counter update is
an atomic JavaScript increment, so the final counts equal this fold in
dispatch order for every schedule. -/
def runCollectionTally (preserve : Bool) (excludedOf : String → Bool)
    (io : String → ItemCalls) (ids : List String) : Tally :=
  ids.foldl (fun t i => applyItemTally preserve (excludedOf i) (io i) t)
    { selected := ids.length, updated := 0, republished := 0,
      skippedExcluded := 0, skippedAlreadyOk := 0, failed := 0 }

/-- The dialog invocation payload fields that onApply reads. -/
structure DialogPayload where
  targetTagIds : List String
  contentRows : List ContentRow
  mediaRows : List MediaRow
  deriving Repr, DecidableEq

/-- The preflight filter of onApply: selected content ids whose row exists,
is not excluded, and has missing tags. -/
def actionableContentIds (p : DialogPayload) (selectedContentIds : List String) : List String :=
  selectedContentIds.filter (fun i =>
    match p.contentRows.find? (fun r => r.id = i) with
    | some r => !r.excluded && r.willAdd
    | none => false)

/-- The preflight filter of onApply for selected media ids. -/
def actionableMediaIds (p : DialogPayload) (selectedMediaIds : List String) : List String :=
  selectedMediaIds.filter (fun i =>
    match p.mediaRows.find? (fun r => r.id = i) with
    | some r => !r.excluded && r.willAdd
    | none => false)

/-- onApply from the dialog source: fail fast with no mutation when no
target tag ids resolved, nothing is selected, or nothing actionable remains
after the preflight filter (none models the early returns); otherwise run
both collections through the pool and report the two tallies. -/
def onApplyModel (p : DialogPayload) (selectedContentIds selectedMediaIds : List String)
    (preserve : Bool) (entryCalls assetCalls : String → ItemCalls) : Option (Tally × Tally) :=
  if p.targetTagIds.length = 0 then none
  else if selectedContentIds.length + selectedMediaIds.length = 0 then none
  else
    let aC := actionableContentIds p selectedContentIds
    let aM := actionableMediaIds p selectedMediaIds
    if aC.isEmpty && aM.isEmpty then none
    else
      some (runCollectionTally preserve (contentRowExcluded p.contentRows) entryCalls aC,
            runCollectionTally preserve (mediaRowExcluded p.mediaRows) assetCalls aM)

/-- An item is double counted exactly when its row is not excluded, its
fetch and update succeed, the republish branch is taken, and the publish
call rejects: it is tallied updated and then failed. -/
def repubFailPred (preserve : Bool) (rowExcluded : Bool) (io : ItemCalls) : Bool :=
  !rowExcluded &&
    (match io.fetch with
     | none => false
     | some ent => io.updateOk && (preserve && ent.published) && !io.publishOk)

lemma applyItemTally_selected (preserve : Bool) (ex : Bool) (io : ItemCalls) (t : Tally) :
    (applyItemTally preserve ex io t).selected = t.selected := by
  unfold applyItemTally
  cases ex <;> rcases hf : io.fetch with _ | ⟨tags, pub⟩ <;>
    cases hu : io.updateOk <;> cases hp : io.publishOk <;>
    cases preserve <;> try cases pub
  all_goals simp

lemma applyItemTally_alreadyOk (preserve : Bool) (ex : Bool) (io : ItemCalls) (t : Tally) :
    (applyItemTally preserve ex io t).skippedAlreadyOk = t.skippedAlreadyOk := by
  unfold applyItemTally
  cases ex <;> rcases hf : io.fetch with _ | ⟨tags, pub⟩ <;>
    cases hu : io.updateOk <;> cases hp : io.publishOk <;>
    cases preserve <;> try cases pub
  all_goals simp

lemma applyItemTally_sum (preserve : Bool) (ex : Bool) (io : ItemCalls) (t : Tally) :
    (applyItemTally preserve ex io t).updated +
      (applyItemTally preserve ex io t).skippedExcluded +
      (applyItemTally preserve ex io t).failed =
    t.updated + t.skippedExcluded + t.failed + 1 +
      (if repubFailPred preserve ex io then 1 else 0) := by
  unfold applyItemTally repubFailPred
  cases ex <;> rcases hf : io.fetch with _ | ⟨tags, pub⟩ <;>
    cases hu : io.updateOk <;> cases hp : io.publishOk <;>
    cases preserve <;> try cases pub
  all_goals simp
  all_goals omega

lemma applyItemTally_repub (preserve : Bool) (ex : Bool) (io : ItemCalls) (t : Tally) :
    (applyItemTally preserve ex io t).republished + t.updated ≤
      (applyItemTally preserve ex io t).updated + t.republished := by
  unfold applyItemTally
  cases ex <;> rcases hf : io.fetch with _ | ⟨tags, pub⟩ <;>
    cases hu : io.updateOk <;> cases hp : io.publishOk <;>
    cases preserve <;> try cases pub
  all_goals simp
  all_goals omega

lemma applyFold_props (preserve : Bool) (exf : String → Bool) (io : String → ItemCalls) :
    ∀ (ids : List String) (t0 : Tally),
      (ids.foldl (fun t i => applyItemTally preserve (exf i) (io i) t) t0).selected =
        t0.selected ∧
      (ids.foldl (fun t i => applyItemTally preserve (exf i) (io i) t) t0).skippedAlreadyOk =
        t0.skippedAlreadyOk ∧
      (ids.foldl (fun t i => applyItemTally preserve (exf i) (io i) t) t0).updated +
        (ids.foldl (fun t i => applyItemTally preserve (exf i) (io i) t) t0).skippedExcluded +
        (ids.foldl (fun t i => applyItemTally preserve (exf i) (io i) t) t0).failed =
        t0.updated + t0.skippedExcluded + t0.failed + ids.length +
          ids.countP (fun i => repubFailPred preserve (exf i) (io i)) ∧
      (ids.foldl (fun t i => applyItemTally preserve (exf i) (io i) t) t0).republished +
        t0.updated ≤
        (ids.foldl (fun t i => applyItemTally preserve (exf i) (io i) t) t0).updated +
          t0.republished := by
  intro ids
  induction ids with
  | nil => intro t0; refine ⟨rfl, rfl, by simp, by simp only [List.foldl_nil]; omega⟩
  | cons i is ih =>
    intro t0
    rw [List.foldl_cons]
    obtain ⟨hsel, hok, hsum, hrep⟩ := ih (applyItemTally preserve (exf i) (io i) t0)
    refine ⟨?_, ?_, ?_, ?_⟩
    · rw [hsel, applyItemTally_selected]
    · rw [hok, applyItemTally_alreadyOk]
    · rw [hsum]
      have hstep := applyItemTally_sum preserve (exf i) (io i) t0
      rw [List.countP_cons]
      simp only [List.length_cons]
      omega
    · have hstep := applyItemTally_repub preserve (exf i) (io i) t0
      omega

lemma runCollectionTally_props (preserve : Bool) (exf : String → Bool)
    (io : String → ItemCalls) (ids : List String) :
    (runCollectionTally preserve exf io ids).selected = ids.length ∧
    (runCollectionTally preserve exf io ids).skippedAlreadyOk = 0 ∧
    (runCollectionTally preserve exf io ids).updated +
      (runCollectionTally preserve exf io ids).skippedExcluded +
      (runCollectionTally preserve exf io ids).failed =
      ids.length + ids.countP (fun i => repubFailPred preserve (exf i) (io i)) ∧
    (runCollectionTally preserve exf io ids).republished ≤
      (runCollectionTally preserve exf io ids).updated := by
  obtain ⟨hsel, hok, hsum, hrep⟩ :=
    applyFold_props preserve exf io ids
      { selected := ids.length, updated := 0, republished := 0,
        skippedExcluded := 0, skippedAlreadyOk := 0, failed := 0 }
  simp only at hsel hok hsum hrep
  unfold runCollectionTally
  exact ⟨hsel, hok, by omega, by omega⟩

lemma onApplyModel_eq_some (p : DialogPayload) (selC selM : List String)
    (preserve : Bool) (eio aio : String → ItemCalls) (s : Tally × Tally)
    (h : onApplyModel p selC selM preserve eio aio = some s) :
    s.1 = runCollectionTally preserve (contentRowExcluded p.contentRows) eio
            (actionableContentIds p selC) ∧
    s.2 = runCollectionTally preserve (mediaRowExcluded p.mediaRows) aio
            (actionableMediaIds p selM) := by
  simp only [onApplyModel] at h
  split at h
  · exact Option.noConfusion h
  · split at h
    · exact Option.noConfusion h
    · split at h
      · exact Option.noConfusion h
      · injection h with h'
        rw [← h']
        exact ⟨rfl, rfl⟩

/-- C10: in every apply run that completes, skippedAlreadyOk is 0 in both
the entries and the assets tally; selected counts only the dispatched
(actionable) ids, and every dispatched id comes from a row that was not
excluded and had missing tags — a selected id whose row had no missing tags
is filtered out before dispatch and counted nowhere. -/
theorem apply_skippedAlreadyOk_zero
    (p : DialogPayload) (selC selM : List String) (preserve : Bool)
    (eio aio : String → ItemCalls) (s : Tally × Tally)
    (h : onApplyModel p selC selM preserve eio aio = some s) :
    s.1.skippedAlreadyOk = 0 ∧ s.2.skippedAlreadyOk = 0 ∧
    s.1.selected = (actionableContentIds p selC).length ∧
    s.2.selected = (actionableMediaIds p selM).length ∧
    (∀ i ∈ actionableContentIds p selC,
      ∃ r ∈ p.contentRows, r.id = i ∧ r.excluded = false ∧ r.willAdd = true) ∧
    (∀ i ∈ actionableMediaIds p selM,
      ∃ r ∈ p.mediaRows, r.id = i ∧ r.excluded = false ∧ r.willAdd = true) := by
  obtain ⟨h1, h2⟩ := onApplyModel_eq_some p selC selM preserve eio aio s h
  obtain ⟨hsel1, hok1, _, _⟩ :=
    runCollectionTally_props preserve (contentRowExcluded p.contentRows) eio
      (actionableContentIds p selC)
  obtain ⟨hsel2, hok2, _, _⟩ :=
    runCollectionTally_props preserve (mediaRowExcluded p.mediaRows) aio
      (actionableMediaIds p selM)
  refine ⟨by rw [h1]; exact hok1, by rw [h2]; exact hok2,
          by rw [h1]; exact hsel1, by rw [h2]; exact hsel2, ?_, ?_⟩
  · intro i hi
    obtain ⟨_, hpred⟩ := List.mem_filter.mp hi
    cases hfind : p.contentRows.find? (fun r => r.id = i) with
    | none => rw [hfind] at hpred; exact Bool.noConfusion hpred
    | some r =>
      rw [hfind] at hpred
      simp only [Bool.and_eq_true, Bool.not_eq_true'] at hpred
      have hr : r ∈ p.contentRows := List.mem_of_find?_eq_some hfind
      have hid : r.id = i := by simpa using List.find?_some hfind
      exact ⟨r, hr, hid, hpred.1, hpred.2⟩
  · intro i hi
    obtain ⟨_, hpred⟩ := List.mem_filter.mp hi
    cases hfind : p.mediaRows.find? (fun r => r.id = i) with
    | none => rw [hfind] at hpred; exact Bool.noConfusion hpred
    | some r =>
      rw [hfind] at hpred
      simp only [Bool.and_eq_true, Bool.not_eq_true'] at hpred
      have hr : r ∈ p.mediaRows := List.mem_of_find?_eq_some hfind
      have hid : r.id = i := by simpa using List.find?_some hfind
      exact ⟨r, hr, hid, hpred.1, hpred.2⟩

/-- Payload of one actionable content row used to instantiate the apply
theorems concretely. -/
def samplePayload : DialogPayload :=
  { targetTagIds := ["t"]
    contentRows := [{ id := "e1", title := "E1", contentType := "page",
                      excluded := false, willAdd := true, alreadyOk := false }]
    mediaRows := [] }

/-- Remote behaviour where the entry is fetched published, its update
succeeds and its republish rejects. -/
def publishFailsBehavior : String → ItemCalls :=
  fun _ => { fetch := some { tags := [], published := true },
             updateOk := true, publishOk := false }

/-- The summary the model produces on samplePayload under publishFailsBehavior:
the one dispatched entry is tallied both updated and failed. -/
def publishFailsSummary : Tally × Tally :=
  ({ selected := 1, updated := 1, republished := 0, skippedExcluded := 0,
     skippedAlreadyOk := 0, failed := 1 },
   { selected := 0, updated := 0, republished := 0, skippedExcluded := 0,
     skippedAlreadyOk := 0, failed := 0 })

/-- C1 counterexample: an apply run over one actionable entry whose update
succeeds and whose republish then throws completes with selected = 1 but
updated + skippedExcluded + failed = 2 — the item is double counted, so the
equation selected = updated + skippedExcluded + failed fails in exactly the
republish-throws-after-update case the claim includes. -/
theorem apply_tally_equation_counterexample :
    onApplyModel samplePayload ["e1"] [] true publishFailsBehavior publishFailsBehavior =
      some publishFailsSummary ∧
    publishFailsSummary.1.selected = 1 ∧
    publishFailsSummary.1.updated + publishFailsSummary.1.skippedExcluded +
      publishFailsSummary.1.failed = 2 ∧
    publishFailsSummary.1.selected ≠
      publishFailsSummary.1.updated + publishFailsSummary.1.skippedExcluded +
        publishFailsSummary.1.failed := by
  refine ⟨by decide, rfl, rfl, by decide⟩

/-- C1 (amended): for every apply run that completes and for each collection,
selected plus the number of dispatched items whose update succeeded and whose
republish step then threw equals updated + skippedExcluded + failed — so the
claimed equation holds exactly when no republish throws after a successful
update, and such an item is otherwise counted in both updated and failed;
republished never exceeds updated (it tallies a subset of the updated
items). -/
theorem apply_tally_equation
    (p : DialogPayload) (selC selM : List String) (preserve : Bool)
    (eio aio : String → ItemCalls) (s : Tally × Tally)
    (h : onApplyModel p selC selM preserve eio aio = some s) :
    (s.1.selected + (actionableContentIds p selC).countP
        (fun i => repubFailPred preserve (contentRowExcluded p.contentRows i) (eio i)) =
       s.1.updated + s.1.skippedExcluded + s.1.failed ∧
     s.1.republished ≤ s.1.updated) ∧
    (s.2.selected + (actionableMediaIds p selM).countP
        (fun i => repubFailPred preserve (mediaRowExcluded p.mediaRows i) (aio i)) =
       s.2.updated + s.2.skippedExcluded + s.2.failed ∧
     s.2.republished ≤ s.2.updated) := by
  obtain ⟨h1, h2⟩ := onApplyModel_eq_some p selC selM preserve eio aio s h
  obtain ⟨hsel1, _, hsum1, hrep1⟩ :=
    runCollectionTally_props preserve (contentRowExcluded p.contentRows) eio
      (actionableContentIds p selC)
  obtain ⟨hsel2, _, hsum2, hrep2⟩ :=
    runCollectionTally_props preserve (mediaRowExcluded p.mediaRows) aio
      (actionableMediaIds p selM)
  rw [h1, h2]
  exact ⟨⟨by omega, hrep1⟩, ⟨by omega, hrep2⟩⟩

/-- Concrete instantiation of apply_tally_equation on the run whose single
entry is double counted: selected 1 plus 1 republish-after-update failure
equals updated 1 + skippedExcluded 0 + failed 1. -/
theorem apply_tally_equation_witness :
    onApplyModel samplePayload ["e1"] [] true publishFailsBehavior publishFailsBehavior =
      some publishFailsSummary ∧
    ((publishFailsSummary.1.selected +
        (actionableContentIds samplePayload ["e1"]).countP
          (fun i => repubFailPred true
            (contentRowExcluded samplePayload.contentRows i) (publishFailsBehavior i)) =
        publishFailsSummary.1.updated + publishFailsSummary.1.skippedExcluded +
          publishFailsSummary.1.failed ∧
      publishFailsSummary.1.republished ≤ publishFailsSummary.1.updated) ∧
     (publishFailsSummary.2.selected +
        (actionableMediaIds samplePayload []).countP
          (fun i => repubFailPred true
            (mediaRowExcluded samplePayload.mediaRows i) (publishFailsBehavior i)) =
        publishFailsSummary.2.updated + publishFailsSummary.2.skippedExcluded +
          publishFailsSummary.2.failed ∧
      publishFailsSummary.2.republished ≤ publishFailsSummary.2.updated)) :=
  ⟨by decide,
   apply_tally_equation samplePayload ["e1"] [] true publishFailsBehavior publishFailsBehavior
     publishFailsSummary (by decide)⟩

/-- Remote behaviour where every call succeeds and the entry is a draft. -/
def allOkDraftBehavior : String → ItemCalls :=
  fun _ => { fetch := some { tags := [], published := false },
             updateOk := true, publishOk := true }

/-- The summary the model produces on samplePayload under allOkDraftBehavior. -/
def allOkDraftSummary : Tally × Tally :=
  ({ selected := 1, updated := 1, republished := 0, skippedExcluded := 0,
     skippedAlreadyOk := 0, failed := 0 },
   { selected := 0, updated := 0, republished := 0, skippedExcluded := 0,
     skippedAlreadyOk := 0, failed := 0 })

/-- Concrete instantiation of apply_skippedAlreadyOk_zero: one actionable
entry, all calls succeed, and both skippedAlreadyOk counters are 0. -/
theorem apply_skippedAlreadyOk_zero_witness :
    onApplyModel samplePayload ["e1"] [] false allOkDraftBehavior allOkDraftBehavior =
      some allOkDraftSummary ∧
    (allOkDraftSummary.1.skippedAlreadyOk = 0 ∧
     allOkDraftSummary.2.skippedAlreadyOk = 0 ∧
     allOkDraftSummary.1.selected = (actionableContentIds samplePayload ["e1"]).length ∧
     allOkDraftSummary.2.selected = (actionableMediaIds samplePayload []).length ∧
     (∀ i ∈ actionableContentIds samplePayload ["e1"],
       ∃ r ∈ samplePayload.contentRows, r.id = i ∧ r.excluded = false ∧ r.willAdd = true) ∧
     (∀ i ∈ actionableMediaIds samplePayload [],
       ∃ r ∈ samplePayload.mediaRows, r.id = i ∧ r.excluded = false ∧ r.willAdd = true)) :=
  ⟨by decide,
   apply_skippedAlreadyOk_zero samplePayload ["e1"] [] false allOkDraftBehavior allOkDraftBehavior
     allOkDraftSummary (by decide)⟩

/-- getLocalizedFieldValue from the sidebar source: an absent field gives
undefined; otherwise prefer the requested locale's stored value, else the
first locale's value, else undefined for an empty localization object. -/
def getLocalizedFieldValue (field : Option (List (String × JVal))) (locale : String) :
    Option JVal :=
  match field with
  | none => none
  | some kvs =>
    match lookupAssoc kvs locale with
    | some v => some v
    | none => kvs.head?.map (·.2)

/-- getEntryTitle from the sidebar source: the first of the four candidate
fields whose localized value is a string that is non-empty after trimming,
else the entry's id. -/
def getEntryTitle (fields : List (String × List (String × JVal)))
    (entryId locale : String) : String :=
  match ["internalName", "title", "name", "headline"].findSome? (fun key =>
    match getLocalizedFieldValue (lookupAssoc fields key) locale with
    | some (JVal.strv s) => if s.trim = "" then none else some s
    | _ => none) with
  | some s => s
  | none => entryId

/-- A remote entry as the crawl sees it: sys.contentType.sys.id (none models
an entry whose content type is unreadable, giving the unknown fallback), the
fields object, and metadata.tags. -/
structure CrawlEntry where
  contentType : Option String
  fields : List (String × List (String × JVal))
  tags : List TagLink

/-- A remote asset as the crawl sees it. -/
structure CrawlAsset where
  fields : List (String × List (String × JVal))
  tags : List TagLink

/-- The remote repository; none models a rejected get call for that id. -/
structure Repo where
  entries : String → Option CrawlEntry
  assets : String → Option CrawlAsset

/-- The installation configuration fields the crawl reads. -/
structure CrawlConfig where
  excludedContentTypes : List String
  includeAssetsByDefault : Bool
  maxTraversalDepth : Nat
  requestConcurrency : Nat

/-- Reason a row was excluded, when it was. -/
inductive ExcludedReason where
  | location : ExcludedReason
  | excludedContentType : ExcludedReason
  deriving Repr, DecidableEq

/-- An entry inventory row of the scan summary. -/
structure EntryScanRow where
  id : String
  contentType : String
  title : String
  excluded : Bool
  existingTagIds : List String
  missingTagIds : List String
  excludedReason : Option ExcludedReason
  deriving Repr, DecidableEq

/-- An asset inventory row of the scan summary. -/
structure AssetScanRow where
  id : String
  title : String
  excluded : Bool
  existingTagIds : List String
  missingTagIds : List String
  deriving Repr, DecidableEq

/-- Mutable state of traverseDescendants: the visited-entry set, the pending
asset set, the per-id entry row map in insertion order, and the frontier
queue of (id, depth) pairs. processedD is a history variable for the proofs
only — the id and depth of each processed entry in processing order — that
no branch of the engine reads. -/
structure ScanState where
  visitedEntries : List String
  visitedAssets : List String
  entryRows : List (String × EntryScanRow)
  queue : List (String × Nat)
  processedD : List (String × Nat)

/-- The link-extraction loop of the crawl over one entry: for every field in
key order, extract from its localized value; an undefined localized value
contributes nothing, as the extractor returns on falsy input. -/
def extractEntryLinks (e : CrawlEntry) (locale : String) : ExtractOut :=
  e.fields.foldl (fun out fld =>
    match getLocalizedFieldValue (some fld.2) locale with
    | some v => deepExtractLinks v out
    | none => out) { entryIds := [], assetIds := [] }

/-- Content type of a fetched entry with the unknown fallback. -/
def entryCt (e : CrawlEntry) : String := e.contentType.getD "unknown"

/-- The exclusion test of the crawl: a configured excluded type, or the
designated location type which is always a boundary. -/
def entryExcluded (cfg : CrawlConfig) (e : CrawlEntry) : Bool :=
  cfg.excludedContentTypes.contains (entryCt e) || entryCt e == "location"

/-- The inventory row the crawl records for a fetched entry. -/
def mkEntryRow (cfg : CrawlConfig) (targetTagIds : List String) (locale : String)
    (id : String) (e : CrawlEntry) : EntryScanRow :=
  let ct := entryCt e
  let isExcludedCt := cfg.excludedContentTypes.contains ct
  let isLocationCt := ct == "location"
  let excluded := isExcludedCt || isLocationCt
  let existing := getTagIdsFromMetadata e.tags
  let missing := targetTagIds.filter (fun t => !(existing.contains t))
  { id := id
    contentType := ct
    title := getEntryTitle e.fields id locale
    excluded := excluded
    existingTagIds := existing
    missingTagIds := if excluded then [] else missing
    excludedReason :=
      if isLocationCt then some ExcludedReason.location
      else if isExcludedCt then some ExcludedReason.excludedContentType
      else none }

/-- The queue entries an expanded entry pushes: its extracted entry links
that are not yet visited, at the parent's depth plus one. -/
def expandItems (e : CrawlEntry) (locale : String) (visited : List String)
    (d : Nat) : List (String × Nat) :=
  ((extractEntryLinks e locale).entryIds.filter
    (fun i => !(visited.contains i))).map (fun i => (i, d + 1))

/-- Adding extracted asset links to the pending asset set. -/
def addAssetIds (ids dest : List String) : List String :=
  ids.foldl (fun a i => insOnce i a) dest

/-- Processing of one dequeued (id, depth) pair by the batch worker of
traverseDescendants: skip when visited; mark visited; fetch — a rejected get
is not caught anywhere in the crawl, so none aborts the whole crawl; record
the row; and unless the entry is excluded or the depth limit is reached,
extract its links, enqueue the not-yet-visited entry links at depth + 1 and
collect the asset links when assets are included. In the source every batch
member is marked visited before any fetch resolves; this left-to-right
linearization can instead enqueue a duplicate that the visited check then
skips at its dequeue. Completion order within a wave is a genuine race: the
post-fetch pushes of one wave land in fetch-resolution order, which can
change the depths dequeued later — claimBatch and processWave below model a
wave under an explicit completion order, of which this serialized
processing is the batch-order instance. -/
def processItem (cfg : CrawlConfig) (repo : Repo) (locale : String)
    (targetTagIds : List String) (st : ScanState) (item : String × Nat) :
    Option ScanState :=
  if st.visitedEntries.contains item.1 then some st
  else
    let st1 := { st with visitedEntries := st.visitedEntries ++ [item.1] }
    match repo.entries item.1 with
    | none => none
    | some e =>
      let row := mkEntryRow cfg targetTagIds locale item.1 e
      let st2 := { st1 with
        entryRows := upsert st1.entryRows item.1 row
        processedD := st1.processedD ++ [item] }
      if entryExcluded cfg e then some st2
      else if cfg.maxTraversalDepth ≤ item.2 then some st2
      else
        let st3 := { st2 with
          queue := st2.queue ++ expandItems e locale st2.visitedEntries item.2 }
        some (if cfg.includeAssetsByDefault then
            { st3 with visitedAssets :=
                addAssetIds (extractEntryLinks e locale).assetIds st3.visitedAssets }
          else st3)

/-- Outcome of the crawl's wave loop. -/
inductive CrawlRes where
  | ok : ScanState → CrawlRes
  | fetchErr : CrawlRes
  | fuelOut : CrawlRes

/-- One wave's batch processed left to right — the batch-order linearization
of the Promise.all over the batch; completion orders other than batch order
are modeled by processWave under a schedule. On a rejection the whole crawl
rejects and no state survives, so the cut-off point is immaterial. -/
def processBatch (cfg : CrawlConfig) (repo : Repo) (locale : String)
    (targetTagIds : List String) : ScanState → List (String × Nat) → Option ScanState
  | st, [] => some st
  | st, it :: rest =>
    match processItem cfg repo locale targetTagIds st it with
    | none => none
    | some st' => processBatch cfg repo locale targetTagIds st' rest

/-- The wave loop of traverseDescendants: splice up to max(1, concurrency)
items off the front of the queue and process them as one wave. -/
def crawlLoop (cfg : CrawlConfig) (repo : Repo) (locale : String)
    (targetTagIds : List String) : Nat → ScanState → CrawlRes
  | 0, st => if st.queue.isEmpty then CrawlRes.ok st else CrawlRes.fuelOut
  | fuel + 1, st =>
    if st.queue.isEmpty then CrawlRes.ok st
    else
      let batch := st.queue.take (max 1 cfg.requestConcurrency)
      let st0 := { st with queue := st.queue.drop (max 1 cfg.requestConcurrency) }
      match processBatch cfg repo locale targetTagIds st0 batch with
      | none => CrawlRes.fetchErr
      | some st' => crawlLoop cfg repo locale targetTagIds fuel st'

/-- Property access v?.k on a JS value: object key lookup, undefined on
anything that is not an object. -/
def jGetKey (v : JVal) (k : String) : Option JVal :=
  match v with
  | JVal.obj kvs => lookupAssoc kvs k
  | _ => none

/-- The nullish test of the ?? and ?. operators: undefined and null both
fall through. -/
def jNonNullish : Option JVal → Option JVal
  | some JVal.nullv => none
  | o => o

mutual
/-- String(v) for the values the asset title chain can produce: strings pass
through, scalars print, arrays join with commas, objects print as the JS
object placeholder. -/
def jToString : JVal → String
  | JVal.strv s => s
  | JVal.numv n => toString n
  | JVal.boolv b => if b then "true" else "false"
  | JVal.nullv => "null"
  | JVal.arr xs => jToStringList xs
  | JVal.obj _ => "[object Object]"
  | JVal.entryLink _ => "[object Object]"
  | JVal.assetLink _ => "[object Object]"

/-- Comma-joined rendering of an array value. -/
def jToStringList : List JVal → String
  | [] => ""
  | [v] => jToString v
  | v :: vs => jToString v ++ "," ++ jToStringList vs
end

/-- The asset title chain of the crawl's asset worker: the localized title
field, else the localized file attribute's fileName, else the asset id,
coerced to a string. -/
def assetTitle (a : CrawlAsset) (assetId locale : String) : String :=
  match jNonNullish (getLocalizedFieldValue (lookupAssoc a.fields "title") locale) with
  | some v => jToString v
  | none =>
    match jNonNullish ((getLocalizedFieldValue (lookupAssoc a.fields "file") locale).bind
        (fun v => jGetKey v "fileName")) with
    | some v => jToString v
    | none => assetId

/-- The inventory row the asset worker records for a fetched asset. -/
def mkAssetRow (targetTagIds : List String) (locale : String) (assetId : String)
    (a : CrawlAsset) : AssetScanRow :=
  let existing := getTagIdsFromMetadata a.tags
  let missing := targetTagIds.filter (fun t => !(existing.contains t))
  { id := assetId
    title := assetTitle a assetId locale
    excluded := false
    existingTagIds := existing
    missingTagIds := missing }

/-- The asset phase of the crawl: when assets are included and any were
collected, fetch each collected id through the pool — a rejected get is not
caught, so none rejects the crawl — and record one row per id. -/
def assetPhase (cfg : CrawlConfig) (repo : Repo) (locale : String)
    (targetTagIds : List String) (st : ScanState) :
    Option (List (String × AssetScanRow)) :=
  if cfg.includeAssetsByDefault && !st.visitedAssets.isEmpty then
    st.visitedAssets.foldl (fun acc assetId =>
      match acc with
      | none => none
      | some rows =>
        match repo.assets assetId with
        | none => none
        | some a => some (upsert rows assetId (mkAssetRow targetTagIds locale assetId a)))
      (some [])
  else some []

/-- The scan summary returned to the sidebar. -/
structure ScanSummary where
  roots : List String
  targetTagIds : List String
  entries : List EntryScanRow
  assets : List AssetScanRow
  deriving Repr, DecidableEq

/-- Outcome of a full crawl: the summary together with — for the proofs —
the final engine state, or the propagated rejection, or exhausted fuel. -/
inductive CrawlOutcome where
  | ok : ScanSummary → ScanState → CrawlOutcome
  | fetchErr : CrawlOutcome
  | fuelOut : CrawlOutcome

/-- The initial crawl state: the queue seeded with the roots at depth 0. -/
def initScanState (rootEntryIds : List String) : ScanState :=
  { visitedEntries := [], visitedAssets := [], entryRows := [],
    queue := rootEntryIds.map (fun i => (i, 0)), processedD := [] }

/-- traverseDescendants from the sidebar source: seed the queue with the
roots at depth 0, drain it in waves through the pool, run the asset phase,
and list both row maps' values in insertion order. -/
def traverseDescendants (cfg : CrawlConfig) (repo : Repo) (locale : String)
    (rootEntryIds : List String) (targetTagIds : List String) (fuel : Nat) :
    CrawlOutcome :=
  match crawlLoop cfg repo locale targetTagIds fuel (initScanState rootEntryIds) with
  | CrawlRes.fetchErr => CrawlOutcome.fetchErr
  | CrawlRes.fuelOut => CrawlOutcome.fuelOut
  | CrawlRes.ok st =>
    match assetPhase cfg repo locale targetTagIds st with
    | none => CrawlOutcome.fetchErr
    | some assetRows =>
      CrawlOutcome.ok
        { roots := rootEntryIds
          targetTagIds := targetTagIds
          entries := st.entryRows.map (·.2)
          assets := assetRows.map (·.2) } st

/-- Traversal-reachability of the crawl: an id is discoverable at depth d
when it is a root (depth 0) or an extracted entry link of a discoverable,
fetchable, non-excluded entry lying strictly below the depth limit —
excluded entries and entries at maxDepth are boundaries whose outgoing links
are not traversal edges. -/
inductive Discoverable (cfg : CrawlConfig) (repo : Repo) (locale : String)
    (roots : List String) : String → Nat → Prop where
  | root : ∀ {i : String}, i ∈ roots → Discoverable cfg repo locale roots i 0
  | child : ∀ {u : String} {d : Nat} {e : CrawlEntry} {v : String},
      Discoverable cfg repo locale roots u d →
      repo.entries u = some e →
      entryExcluded cfg e = false →
      d < cfg.maxTraversalDepth →
      v ∈ (extractEntryLinks e locale).entryIds →
      Discoverable cfg repo locale roots v (d + 1)

lemma mem_upsert_self {α : Type} (kvs : List (String × α)) (k : String) (v : α) :
    (k, v) ∈ upsert kvs k v := by
  unfold upsert
  split
  · rename_i h
    obtain ⟨p, hp⟩ := Option.isSome_iff_exists.mp h
    have hpk : p.1 = k := by simpa using List.find?_some hp
    have hpmem : p ∈ kvs := List.mem_of_find?_eq_some hp
    exact List.mem_map.mpr ⟨p, hpmem, by simp [hpk]⟩
  · exact List.mem_append.mpr (Or.inr (List.mem_singleton.mpr rfl))

lemma mem_upsert {α : Type} {kvs : List (String × α)} {k : String} {v : α}
    {p : String × α} (hp : p ∈ upsert kvs k v) : p ∈ kvs ∨ p = (k, v) := by
  unfold upsert at hp
  split at hp
  · obtain ⟨q, hq, hqe⟩ := List.mem_map.mp hp
    by_cases hk : q.1 = k
    · right; rw [if_pos hk] at hqe; exact hqe.symm
    · left; rw [if_neg hk] at hqe; rwa [← hqe]
  · rcases List.mem_append.mp hp with h | h
    · exact Or.inl h
    · right; simpa using h

lemma upsert_fresh {α : Type} {kvs : List (String × α)} {k : String} (v : α)
    (h : kvs.find? (fun p => p.1 = k) = none) :
    upsert kvs k v = kvs ++ [(k, v)] := by
  unfold upsert
  rw [h]
  rfl

lemma processItem_visited (cfg : CrawlConfig) (repo : Repo) (locale : String)
    (tgts : List String) (st : ScanState) (it : String × Nat)
    (hv : st.visitedEntries.contains it.1 = true) :
    processItem cfg repo locale tgts st it = some st := by
  have hm : it.1 ∈ st.visitedEntries := List.elem_iff.mp hv
  unfold processItem
  simp [hm]

lemma processItem_fetchFail (cfg : CrawlConfig) (repo : Repo) (locale : String)
    (tgts : List String) (st : ScanState) (it : String × Nat)
    (hv : st.visitedEntries.contains it.1 = false)
    (hf : repo.entries it.1 = none) :
    processItem cfg repo locale tgts st it = none := by
  have hm : it.1 ∉ st.visitedEntries := by simpa using hv
  unfold processItem
  simp [hm, hf]

/-- The state after processing an entry that is reported but not expanded:
excluded or at the depth limit. -/
def boundaryState (cfg : CrawlConfig) (tgts : List String) (locale : String)
    (st : ScanState) (it : String × Nat) (e : CrawlEntry) : ScanState :=
  { st with
    visitedEntries := st.visitedEntries ++ [it.1]
    entryRows := upsert st.entryRows it.1 (mkEntryRow cfg tgts locale it.1 e)
    processedD := st.processedD ++ [it] }

/-- The state after processing an entry that is reported and expanded. -/
def expandState (cfg : CrawlConfig) (tgts : List String) (locale : String)
    (st : ScanState) (it : String × Nat) (e : CrawlEntry) : ScanState :=
  { st with
    visitedEntries := st.visitedEntries ++ [it.1]
    entryRows := upsert st.entryRows it.1 (mkEntryRow cfg tgts locale it.1 e)
    processedD := st.processedD ++ [it]
    queue := st.queue ++ expandItems e locale (st.visitedEntries ++ [it.1]) it.2
    visitedAssets :=
      if cfg.includeAssetsByDefault then
        addAssetIds (extractEntryLinks e locale).assetIds st.visitedAssets
      else st.visitedAssets }

lemma processItem_boundary (cfg : CrawlConfig) (repo : Repo) (locale : String)
    (tgts : List String) (st : ScanState) (it : String × Nat) (e : CrawlEntry)
    (hv : st.visitedEntries.contains it.1 = false)
    (hf : repo.entries it.1 = some e)
    (hstop : entryExcluded cfg e = true ∨ cfg.maxTraversalDepth ≤ it.2) :
    processItem cfg repo locale tgts st it =
      some (boundaryState cfg tgts locale st it e) := by
  have hm : it.1 ∉ st.visitedEntries := by simpa using hv
  unfold processItem boundaryState
  rcases hstop with hex | hd
  · simp [hm, hf, hex]
  · by_cases hex : entryExcluded cfg e = true
    · simp [hm, hf, hex]
    · simp [hm, hf, hex, hd]

lemma processItem_expand (cfg : CrawlConfig) (repo : Repo) (locale : String)
    (tgts : List String) (st : ScanState) (it : String × Nat) (e : CrawlEntry)
    (hv : st.visitedEntries.contains it.1 = false)
    (hf : repo.entries it.1 = some e)
    (hex : entryExcluded cfg e = false)
    (hd : it.2 < cfg.maxTraversalDepth) :
    processItem cfg repo locale tgts st it =
      some (expandState cfg tgts locale st it e) := by
  have hm : it.1 ∉ st.visitedEntries := by simpa using hv
  unfold processItem expandState
  have hd' : ¬(cfg.maxTraversalDepth ≤ it.2) := not_le.mpr hd
  by_cases hinc : cfg.includeAssetsByDefault = true
  · simp [hm, hf, hex, hd', hinc]
  · simp [hm, hf, hex, hd', hinc]

/-- Invariant of the crawl loop, stated relative to the pending remainder of
the current wave's batch (already spliced off the queue, not yet processed);
the virtual frontier is pending ++ queue. Depths in the frontier are
nondecreasing and within one of each other, processed depths never exceed
frontier depths (so the dequeue-depth sequence is monotone), the visited set
is exactly the processed ids, each id is processed at most once, the row map
keys are the processed ids in order, every row is well formed, and frontier
and processed pairs are discoverable within the depth bound. -/
structure CrawlInv (cfg : CrawlConfig) (repo : Repo) (locale : String)
    (roots : List String) (st : ScanState) (pending : List (String × Nat)) : Prop where
  sorted : (pending ++ st.queue).Pairwise (fun a b => a.2 ≤ b.2)
  spread : ∀ a ∈ pending ++ st.queue, ∀ b ∈ pending ++ st.queue, a.2 ≤ b.2 + 1
  procLE : ∀ a ∈ st.processedD, ∀ b ∈ pending ++ st.queue, a.2 ≤ b.2
  visIff : ∀ i, i ∈ st.visitedEntries ↔ ∃ d, (i, d) ∈ st.processedD
  procNodup : (st.processedD.map Prod.fst).Nodup
  rowsKeys : st.entryRows.map Prod.fst = st.processedD.map Prod.fst
  rowsOK : ∀ p ∈ st.entryRows, p.2.id = p.1 ∧
    p.2.excluded = (cfg.excludedContentTypes.contains p.2.contentType ||
      p.2.contentType == "location") ∧
    (p.2.excluded = true → p.2.missingTagIds = [])
  discQ : ∀ a ∈ pending ++ st.queue,
    Discoverable cfg repo locale roots a.1 a.2 ∧ a.2 ≤ cfg.maxTraversalDepth
  discP : ∀ a ∈ st.processedD,
    Discoverable cfg repo locale roots a.1 a.2 ∧ a.2 ≤ cfg.maxTraversalDepth

lemma mkEntryRow_wf (cfg : CrawlConfig) (tgts : List String) (locale : String)
    (id : String) (e : CrawlEntry) :
    (mkEntryRow cfg tgts locale id e).id = id ∧
    (mkEntryRow cfg tgts locale id e).excluded =
      (cfg.excludedContentTypes.contains (mkEntryRow cfg tgts locale id e).contentType ||
        (mkEntryRow cfg tgts locale id e).contentType == "location") ∧
    ((mkEntryRow cfg tgts locale id e).excluded = true →
      (mkEntryRow cfg tgts locale id e).missingTagIds = []) := by
  refine ⟨rfl, rfl, ?_⟩
  intro h
  unfold mkEntryRow at h ⊢
  simp only at h ⊢
  rw [h]
  rfl

lemma pairwise_const_le (l : List (String × Nat)) (c : Nat)
    (h : ∀ x ∈ l, x.2 = c) : l.Pairwise (fun a b => a.2 ≤ b.2) := by
  induction l with
  | nil => exact List.Pairwise.nil
  | cons x xs ih =>
    rw [List.pairwise_cons]
    refine ⟨?_, ih (fun y hy => h y (List.mem_cons_of_mem _ hy))⟩
    intro b hb
    rw [h x (List.mem_cons_self _ _), h b (List.mem_cons_of_mem _ hb)]

lemma expandItems_depth (e : CrawlEntry) (locale : String) (visited : List String)
    (d : Nat) : ∀ x ∈ expandItems e locale visited d, x.2 = d + 1 := by
  intro x hx
  obtain ⟨i, _, hie⟩ := List.mem_map.mp hx
  rw [← hie]

lemma expandItems_mem (e : CrawlEntry) (locale : String) (visited : List String)
    (d : Nat) : ∀ x ∈ expandItems e locale visited d,
      x.1 ∈ (extractEntryLinks e locale).entryIds := by
  intro x hx
  obtain ⟨i, hi, hie⟩ := List.mem_map.mp hx
  rw [← hie]
  exact (List.mem_filter.mp hi).1


lemma processItem_inv (cfg : CrawlConfig) (repo : Repo) (locale : String)
    (tgts roots : List String) {st st' : ScanState} {it : String × Nat}
    {pending : List (String × Nat)}
    (hinv : CrawlInv cfg repo locale roots st (it :: pending))
    (h : processItem cfg repo locale tgts st it = some st') :
    CrawlInv cfg repo locale roots st' pending ∧
    (∀ x ∈ st.processedD, x ∈ st'.processedD) ∧
    (∀ x ∈ st.queue, x ∈ st'.queue) ∧
    (∃ pd, pd ≤ it.2 ∧ (it.1, pd) ∈ st'.processedD) ∧
    (∀ u pu, (u, pu) ∈ st'.processedD → (u, pu) ∉ st.processedD →
      ∀ e, repo.entries u = some e → entryExcluded cfg e = false →
        pu < cfg.maxTraversalDepth →
        ∀ v ∈ (extractEntryLinks e locale).entryIds,
          (∃ pv, pv ≤ pu + 1 ∧ (v, pv) ∈ st'.processedD) ∨ (v, pu + 1) ∈ st'.queue) := by
  have hit : it ∈ (it :: pending) ++ st.queue := by simp
  have hhead : ∀ b ∈ pending ++ st.queue, it.2 ≤ b.2 := by
    have hs := hinv.sorted
    rw [List.cons_append, List.pairwise_cons] at hs
    exact hs.1
  have htail : (pending ++ st.queue).Pairwise (fun a b => a.2 ≤ b.2) := by
    have hs := hinv.sorted
    rw [List.cons_append, List.pairwise_cons] at hs
    exact hs.2
  have hsub : ∀ a ∈ pending ++ st.queue, a ∈ (it :: pending) ++ st.queue := by
    intro a ha
    rw [List.cons_append]
    exact List.mem_cons_of_mem _ ha
  cases hv : st.visitedEntries.contains it.1 with
  | true =>
    rw [processItem_visited cfg repo locale tgts st it hv] at h
    obtain rfl := Option.some.inj h
    refine ⟨?_, fun x hx => hx, fun x hx => hx, ?_, ?_⟩
    · refine ⟨htail, ?_, ?_, hinv.visIff, hinv.procNodup, hinv.rowsKeys, hinv.rowsOK, ?_,
        hinv.discP⟩
      · intro a ha b hb
        exact hinv.spread a (hsub a ha) b (hsub b hb)
      · intro a ha b hb
        exact hinv.procLE a ha b (hsub b hb)
      · intro a ha
        exact hinv.discQ a (hsub a ha)
    · have hvm : it.1 ∈ st.visitedEntries := by simpa using hv
      obtain ⟨d, hd⟩ := (hinv.visIff it.1).mp hvm
      exact ⟨d, hinv.procLE _ hd it hit, hd⟩
    · intro u pu hmem hnmem
      exact absurd hmem hnmem
  | false =>
    have hfresh : it.1 ∉ st.visitedEntries := by simpa using hv
    have hfreshP : ∀ d, (it.1, d) ∉ st.processedD := by
      intro d hd
      exact hfresh ((hinv.visIff it.1).mpr ⟨d, hd⟩)
    have hfreshK : it.1 ∉ st.processedD.map Prod.fst := by
      intro hk
      obtain ⟨⟨p1, p2⟩, hp, hpe⟩ := List.mem_map.mp hk
      dsimp at hpe
      subst hpe
      exact hfreshP p2 hp
    cases hf : repo.entries it.1 with
    | none =>
      rw [processItem_fetchFail cfg repo locale tgts st it hv hf] at h
      exact Option.noConfusion h
    | some e =>
      have hrowsfreshK : it.1 ∉ st.entryRows.map Prod.fst := by
        rw [hinv.rowsKeys]
        exact hfreshK
      have hrowsfind : st.entryRows.find? (fun p => p.1 = it.1) = none := by
        rw [List.find?_eq_none]
        intro p hp
        simp only [decide_eq_true_eq]
        intro hk
        exact hrowsfreshK (hk ▸ List.mem_map_of_mem _ hp)
      have hups : upsert st.entryRows it.1 (mkEntryRow cfg tgts locale it.1 e) =
          st.entryRows ++ [(it.1, mkEntryRow cfg tgts locale it.1 e)] :=
        upsert_fresh _ hrowsfind
      have hB : (it.1, it.2) ∈ st.processedD ++ [it] := by
        apply List.mem_append_right
        simp
      have hvisIff : ∀ i, i ∈ st.visitedEntries ++ [it.1] ↔
          ∃ d, (i, d) ∈ st.processedD ++ [it] := by
        intro i
        constructor
        · intro hi
          rcases List.mem_append.mp hi with hold | hnew
          · obtain ⟨d, hd⟩ := (hinv.visIff i).mp hold
            exact ⟨d, List.mem_append_left _ hd⟩
          · have hieq : i = it.1 := by simpa using hnew
            subst hieq
            exact ⟨it.2, hB⟩
        · rintro ⟨d, hd⟩
          rcases List.mem_append.mp hd with hold | hnew
          · exact List.mem_append_left _ ((hinv.visIff i).mpr ⟨d, hold⟩)
          · have heq : (i, d) = it := by simpa using hnew
            have hieq : i = it.1 := by rw [← heq]
            apply List.mem_append_right
            simp [hieq]
      have hnodup : ((st.processedD ++ [it]).map Prod.fst).Nodup := by
        rw [List.map_append]
        refine List.Nodup.append hinv.procNodup (by simp) ?_
        intro a ha hb
        have : a = it.1 := by simpa using hb
        subst this
        exact hfreshK ha
      have hkeys : ((st.entryRows ++ [(it.1, mkEntryRow cfg tgts locale it.1 e)]).map
          Prod.fst) = (st.processedD ++ [it]).map Prod.fst := by
        rw [List.map_append, List.map_append, hinv.rowsKeys]
        simp
      have hrowsOK : ∀ p ∈ st.entryRows ++ [(it.1, mkEntryRow cfg tgts locale it.1 e)],
          p.2.id = p.1 ∧
          p.2.excluded = (cfg.excludedContentTypes.contains p.2.contentType ||
            p.2.contentType == "location") ∧
          (p.2.excluded = true → p.2.missingTagIds = []) := by
        intro p hp
        rcases List.mem_append.mp hp with hold | hnew
        · exact hinv.rowsOK p hold
        · have heq : p = (it.1, mkEntryRow cfg tgts locale it.1 e) := by simpa using hnew
          subst heq
          exact mkEntryRow_wf cfg tgts locale it.1 e
      have hdiscP : ∀ a ∈ st.processedD ++ [it],
          Discoverable cfg repo locale roots a.1 a.2 ∧ a.2 ≤ cfg.maxTraversalDepth := by
        intro a ha
        rcases List.mem_append.mp ha with hold | hnew
        · exact hinv.discP a hold
        · have heq : a = it := by simpa using hnew
          rw [heq]
          exact hinv.discQ it hit
      have hprocLEold : ∀ a ∈ st.processedD ++ [it], ∀ b ∈ pending ++ st.queue,
          a.2 ≤ b.2 := by
        intro a ha b hb
        rcases List.mem_append.mp ha with hold | hnew
        · exact hinv.procLE a hold b (hsub b hb)
        · have heq : a = it := by simpa using hnew
          rw [heq]
          exact hhead b hb
      by_cases hstop : entryExcluded cfg e = true ∨ cfg.maxTraversalDepth ≤ it.2
      · rw [processItem_boundary cfg repo locale tgts st it e hv hf hstop] at h
        obtain rfl := Option.some.inj h
        refine ⟨?_, ?_, fun x hx => hx, ⟨it.2, le_rfl, hB⟩, ?_⟩
        · refine ⟨htail, ?_, hprocLEold, hvisIff, hnodup, ?_, ?_, ?_, hdiscP⟩
          · intro a ha b hb
            exact hinv.spread a (hsub a ha) b (hsub b hb)
          · show (upsert st.entryRows it.1 (mkEntryRow cfg tgts locale it.1 e)).map
                Prod.fst = _
            rw [hups]
            exact hkeys
          · intro p hp
            rw [show (boundaryState cfg tgts locale st it e).entryRows =
                upsert st.entryRows it.1 (mkEntryRow cfg tgts locale it.1 e) from rfl,
              hups] at hp
            exact hrowsOK p hp
          · intro a ha
            exact hinv.discQ a (hsub a ha)
        · intro x hx
          exact List.mem_append_left _ hx
        · intro u pu hmem hnmem e₂ hf₂ hex₂ hd₂ v hvmem
          rcases List.mem_append.mp hmem with hold | hnew
          · exact absurd hold hnmem
          · have heq : (u, pu) = it := by simpa using hnew
            have hu : u = it.1 := by rw [← heq]
            have hpu : pu = it.2 := by rw [← heq]
            subst hu
            rw [hf] at hf₂
            obtain rfl := Option.some.inj hf₂
            rcases hstop with hex | hd
            · rw [hex₂] at hex
              exact Bool.noConfusion hex
            · rw [hpu] at hd₂
              omega
      · push_neg at hstop
        have hex : entryExcluded cfg e = false := Bool.eq_false_iff.mpr hstop.1
        have hd : it.2 < cfg.maxTraversalDepth := hstop.2
        rw [processItem_expand cfg repo locale tgts st it e hv hf hex hd] at h
        obtain rfl := Option.some.inj h
        have hnewsdepth := expandItems_depth e locale (st.visitedEntries ++ [it.1]) it.2
        have hnewsmem := expandItems_mem e locale (st.visitedEntries ++ [it.1]) it.2
        have hqe : (expandState cfg tgts locale st it e).queue =
            st.queue ++ expandItems e locale (st.visitedEntries ++ [it.1]) it.2 := rfl
        have hpe : (expandState cfg tgts locale st it e).processedD =
            st.processedD ++ [it] := rfl
        refine ⟨?_, ?_, ?_, ⟨it.2, le_rfl, hB⟩, ?_⟩
        · refine ⟨?_, ?_, ?_, hvisIff, hnodup, ?_, ?_, ?_, hdiscP⟩
          · show (pending ++ (st.queue ++
              expandItems e locale (st.visitedEntries ++ [it.1]) it.2)).Pairwise _
            rw [← List.append_assoc]
            rw [List.pairwise_append]
            refine ⟨htail, pairwise_const_le _ (it.2 + 1) hnewsdepth, ?_⟩
            intro a ha b hb
            rw [hnewsdepth b hb]
            exact hinv.spread a (hsub a ha) it hit
          · intro a ha b hb
            rw [hqe] at ha hb
            rw [← List.append_assoc] at ha hb
            rcases List.mem_append.mp ha with ha' | ha' <;>
              rcases List.mem_append.mp hb with hb' | hb'
            · exact hinv.spread a (hsub a ha') b (hsub b hb')
            · rw [hnewsdepth b hb']
              have := hinv.spread a (hsub a ha') it hit
              omega
            · rw [hnewsdepth a ha']
              have := hhead b hb'
              omega
            · rw [hnewsdepth a ha', hnewsdepth b hb']
              omega
          · intro a ha b hb
            rw [hpe] at ha
            rw [hqe] at hb
            rw [← List.append_assoc] at hb
            rcases List.mem_append.mp hb with hb' | hb'
            · exact hprocLEold a ha b hb'
            · rw [hnewsdepth b hb']
              rcases List.mem_append.mp ha with ha' | ha'
              · have := hinv.procLE a ha' it hit
                omega
              · have heq : a = it := by simpa using ha'
                subst heq
                omega
          · show (upsert st.entryRows it.1 (mkEntryRow cfg tgts locale it.1 e)).map
                Prod.fst = _
            rw [hups]
            exact hkeys
          · intro p hp
            rw [show (expandState cfg tgts locale st it e).entryRows =
                upsert st.entryRows it.1 (mkEntryRow cfg tgts locale it.1 e) from rfl,
              hups] at hp
            exact hrowsOK p hp
          · intro a ha
            rw [hqe] at ha
            rw [← List.append_assoc] at ha
            rcases List.mem_append.mp ha with ha' | ha'
            · exact hinv.discQ a (hsub a ha')
            · have ha2 := hnewsdepth a ha'
              have hchild : Discoverable cfg repo locale roots a.1 (it.2 + 1) :=
                Discoverable.child (hinv.discQ it hit).1 hf hex hd (hnewsmem a ha')
              rw [ha2]
              exact ⟨hchild, by omega⟩
        · intro x hx
          exact List.mem_append_left _ hx
        · intro x hx
          exact List.mem_append_left _ hx
        · intro u pu hmem hnmem e₂ hf₂ hex₂ hd₂ v hvmem
          rcases List.mem_append.mp hmem with hold | hnew
          · exact absurd hold hnmem
          · have heq : (u, pu) = it := by simpa using hnew
            have hu : u = it.1 := by rw [← heq]
            have hpu : pu = it.2 := by rw [← heq]
            subst hu
            rw [hf] at hf₂
            obtain rfl := Option.some.inj hf₂
            by_cases hvv : v ∈ st.visitedEntries ++ [it.1]
            · rcases List.mem_append.mp hvv with hvold | hvnew
              · obtain ⟨d, hdm⟩ := (hinv.visIff v).mp hvold
                refine Or.inl ⟨d, ?_, List.mem_append_left _ hdm⟩
                have := hinv.procLE (v, d) hdm it hit
                omega
              · have hveq : v = it.1 := by simpa using hvnew
                subst hveq
                exact Or.inl ⟨it.2, by omega, hB⟩
            · refine Or.inr ?_
              apply List.mem_append_right
              rw [hpu]
              apply List.mem_map.mpr
              refine ⟨v, List.mem_filter.mpr ⟨hvmem, ?_⟩, rfl⟩
              simpa using hvv

lemma processBatch_inv (cfg : CrawlConfig) (repo : Repo) (locale : String)
    (tgts roots : List String) :
    ∀ (bs : List (String × Nat)) (st st' : ScanState),
      CrawlInv cfg repo locale roots st bs →
      processBatch cfg repo locale tgts st bs = some st' →
      CrawlInv cfg repo locale roots st' [] ∧
      (∀ x ∈ st.processedD, x ∈ st'.processedD) ∧
      (∀ x ∈ st.queue, x ∈ st'.queue) ∧
      (∀ it ∈ bs, ∃ pd, pd ≤ it.2 ∧ (it.1, pd) ∈ st'.processedD) ∧
      (∀ u pu, (u, pu) ∈ st'.processedD → (u, pu) ∉ st.processedD →
        ∀ e, repo.entries u = some e → entryExcluded cfg e = false →
          pu < cfg.maxTraversalDepth →
          ∀ v ∈ (extractEntryLinks e locale).entryIds,
            (∃ pv, pv ≤ pu + 1 ∧ (v, pv) ∈ st'.processedD) ∨ (v, pu + 1) ∈ st'.queue) := by
  intro bs
  induction bs with
  | nil =>
    intro st st' hinv h
    obtain rfl : st = st' := Option.some.inj h
    refine ⟨hinv, fun x hx => hx, fun x hx => hx, by simp, ?_⟩
    intro u pu hmem hnmem
    exact absurd hmem hnmem
  | cons it rest ih =>
    intro st st' hinv h
    have hstep : processBatch cfg repo locale tgts st (it :: rest) =
        match processItem cfg repo locale tgts st it with
        | none => none
        | some st1 => processBatch cfg repo locale tgts st1 rest := rfl
    rw [hstep] at h
    cases hpi : processItem cfg repo locale tgts st it with
    | none =>
      rw [hpi] at h
      exact Option.noConfusion h
    | some st1 =>
      rw [hpi] at h
      obtain ⟨hinv1, hm1, hq1, hB1, hC1⟩ :=
        processItem_inv cfg repo locale tgts roots hinv hpi
      obtain ⟨hinvF, hm2, hq2, hB2, hC2⟩ := ih st1 st' hinv1 h
      refine ⟨hinvF, fun x hx => hm2 x (hm1 x hx), fun x hx => hq2 x (hq1 x hx), ?_, ?_⟩
      · intro j hj
        rcases List.mem_cons.mp hj with hji | hjr
        · subst hji
          obtain ⟨pd, hpd, hmem⟩ := hB1
          exact ⟨pd, hpd, hm2 _ hmem⟩
        · exact hB2 j hjr
      · intro u pu hmem hnmem e hfe hex hd v hvmem
        by_cases hm : (u, pu) ∈ st1.processedD
        · have hres := hC1 u pu hm hnmem e hfe hex hd v hvmem
          rcases hres with ⟨pv, hpv, hpm⟩ | hq
          · exact Or.inl ⟨pv, hpv, hm2 _ hpm⟩
          · exact Or.inr (hq2 _ hq)
        · exact hC2 u pu hmem hm e hfe hex hd v hvmem

lemma crawlLoop_main (cfg : CrawlConfig) (repo : Repo) (locale : String)
    (tgts roots : List String) :
    ∀ (fuel : Nat) (st stF : ScanState),
      CrawlInv cfg repo locale roots st [] →
      crawlLoop cfg repo locale tgts fuel st = CrawlRes.ok stF →
      CrawlInv cfg repo locale roots stF [] ∧
      (∀ x ∈ st.processedD, x ∈ stF.processedD) ∧
      (∀ it ∈ st.queue, ∃ pd, pd ≤ it.2 ∧ (it.1, pd) ∈ stF.processedD) ∧
      (∀ u pu, (u, pu) ∈ stF.processedD → (u, pu) ∉ st.processedD →
        ∀ e, repo.entries u = some e → entryExcluded cfg e = false →
          pu < cfg.maxTraversalDepth →
          ∀ v ∈ (extractEntryLinks e locale).entryIds,
            ∃ pv, pv ≤ pu + 1 ∧ (v, pv) ∈ stF.processedD) := by
  intro fuel
  induction fuel with
  | zero =>
    intro st stF hinv h
    have hstep : crawlLoop cfg repo locale tgts 0 st =
        if st.queue.isEmpty then CrawlRes.ok st else CrawlRes.fuelOut := rfl
    rw [hstep] at h
    by_cases hqe : st.queue.isEmpty = true
    · rw [if_pos hqe] at h
      have hse : st = stF := by injection h
      subst hse
      have hqnil : st.queue = [] := List.isEmpty_iff.mp hqe
      refine ⟨hinv, fun x hx => hx, ?_, ?_⟩
      · intro j hj
        rw [hqnil] at hj
        exact absurd hj (List.not_mem_nil j)
      · intro u pu hmem hnmem
        exact absurd hmem hnmem
    · rw [if_neg hqe] at h
      exact CrawlRes.noConfusion h
  | succ fuel ihf =>
    intro st stF hinv h
    have hstep : crawlLoop cfg repo locale tgts (fuel + 1) st =
        if st.queue.isEmpty then CrawlRes.ok st
        else
          match processBatch cfg repo locale tgts
              { st with queue := st.queue.drop (max 1 cfg.requestConcurrency) }
              (st.queue.take (max 1 cfg.requestConcurrency)) with
          | none => CrawlRes.fetchErr
          | some st1 => crawlLoop cfg repo locale tgts fuel st1 := rfl
    rw [hstep] at h
    by_cases hqe : st.queue.isEmpty = true
    · rw [if_pos hqe] at h
      have hse : st = stF := by injection h
      subst hse
      have hqnil : st.queue = [] := List.isEmpty_iff.mp hqe
      refine ⟨hinv, fun x hx => hx, ?_, ?_⟩
      · intro j hj
        rw [hqnil] at hj
        exact absurd hj (List.not_mem_nil j)
      · intro u pu hmem hnmem
        exact absurd hmem hnmem
    · rw [if_neg hqe] at h
      cases hpb : processBatch cfg repo locale tgts
          { st with queue := st.queue.drop (max 1 cfg.requestConcurrency) }
          (st.queue.take (max 1 cfg.requestConcurrency)) with
      | none =>
        rw [hpb] at h
        exact CrawlRes.noConfusion h
      | some st1 =>
        rw [hpb] at h
        have htd : st.queue.take (max 1 cfg.requestConcurrency) ++
            st.queue.drop (max 1 cfg.requestConcurrency) = st.queue :=
          List.take_append_drop _ st.queue
        have hinv0 : CrawlInv cfg repo locale roots
            { st with queue := st.queue.drop (max 1 cfg.requestConcurrency) }
            (st.queue.take (max 1 cfg.requestConcurrency)) := by
          refine ⟨?_, ?_, ?_, hinv.visIff, hinv.procNodup, hinv.rowsKeys, hinv.rowsOK,
            ?_, hinv.discP⟩
          · show (st.queue.take (max 1 cfg.requestConcurrency) ++
              st.queue.drop (max 1 cfg.requestConcurrency)).Pairwise _
            rw [htd]
            exact hinv.sorted
          · intro a ha b hb
            rw [htd] at ha hb
            exact hinv.spread a ha b hb
          · intro a ha b hb
            rw [htd] at hb
            exact hinv.procLE a ha b hb
          · intro a ha
            rw [htd] at ha
            exact hinv.discQ a ha
        obtain ⟨hinv1, hm1, hq1, hB1, hC1⟩ :=
          processBatch_inv cfg repo locale tgts roots _ _ _ hinv0 hpb
        obtain ⟨hinvF, hm2, hB2, hC2⟩ := ihf st1 stF hinv1 h
        refine ⟨hinvF, fun x hx => hm2 x (hm1 x hx), ?_, ?_⟩
        · intro j hj
          rw [← htd] at hj
          rcases List.mem_append.mp hj with hjt | hjd
          · obtain ⟨pd, hpd, hmem⟩ := hB1 j hjt
            exact ⟨pd, hpd, hm2 _ hmem⟩
          · exact hB2 j (hq1 j hjd)
        · intro u pu hmem hnmem e hfe hex hd v hvmem
          by_cases hm : (u, pu) ∈ st1.processedD
          · have hres := hC1 u pu hm hnmem e hfe hex hd v hvmem
            rcases hres with ⟨pv, hpv, hpm⟩ | hq
            · exact ⟨pv, hpv, hm2 _ hpm⟩
            · obtain ⟨pv, hpv, hpm⟩ := hB2 (v, pu + 1) hq
              exact ⟨pv, hpv, hpm⟩
          · exact hC2 u pu hmem hm e hfe hex hd v hvmem

lemma initScanState_inv (cfg : CrawlConfig) (repo : Repo) (locale : String)
    (roots : List String) :
    CrawlInv cfg repo locale roots (initScanState roots) [] := by
  refine ⟨?_, ?_, ?_, ?_, ?_, ?_, ?_, ?_, ?_⟩
  · apply pairwise_const_le _ 0
    intro x hx
    simp only [initScanState, List.nil_append] at hx
    obtain ⟨i, _, hie⟩ := List.mem_map.mp hx
    rw [← hie]
  · intro a ha b hb
    simp only [initScanState, List.nil_append] at ha
    obtain ⟨i, _, hie⟩ := List.mem_map.mp ha
    rw [← hie]
    exact Nat.zero_le _
  · intro a ha
    exact absurd ha (List.not_mem_nil a)
  · intro i
    simp [initScanState]
  · simp [initScanState]
  · rfl
  · intro p hp
    exact absurd hp (List.not_mem_nil p)
  · intro a ha
    simp only [initScanState, List.nil_append] at ha
    obtain ⟨i, hi, hie⟩ := List.mem_map.mp ha
    rw [← hie]
    exact ⟨Discoverable.root hi, Nat.zero_le _⟩
  · intro a ha
    exact absurd ha (List.not_mem_nil a)

lemma traverseDescendants_ok_inv (cfg : CrawlConfig) (repo : Repo) (locale : String)
    (roots tgts : List String) (fuel : Nat) (summary : ScanSummary) (stF : ScanState)
    (h : traverseDescendants cfg repo locale roots tgts fuel = CrawlOutcome.ok summary stF) :
    crawlLoop cfg repo locale tgts fuel (initScanState roots) = CrawlRes.ok stF ∧
    summary.entries = stF.entryRows.map Prod.snd := by
  unfold traverseDescendants at h
  cases hc : crawlLoop cfg repo locale tgts fuel (initScanState roots) with
  | fetchErr =>
    rw [hc] at h
    exact CrawlOutcome.noConfusion h
  | fuelOut =>
    rw [hc] at h
    exact CrawlOutcome.noConfusion h
  | ok st =>
    rw [hc] at h
    have h' : (match assetPhase cfg repo locale tgts st with
        | none => CrawlOutcome.fetchErr
        | some assetRows =>
          CrawlOutcome.ok
            { roots := roots, targetTagIds := tgts,
              entries := st.entryRows.map (fun x => x.2),
              assets := assetRows.map (fun x => x.2) } st) =
        CrawlOutcome.ok summary stF := h
    cases hap : assetPhase cfg repo locale tgts st with
    | none =>
      rw [hap] at h'
      exact CrawlOutcome.noConfusion h'
    | some rows =>
      rw [hap] at h'
      injection h' with h1 h2
      subst h2
      exact ⟨rfl, by rw [← h1]⟩

lemma nodup_keys_eq {α : Type} {l : List (String × α)} (h : (l.map Prod.fst).Nodup)
    {k : String} {v w : α} (hv : (k, v) ∈ l) (hw : (k, w) ∈ l) : v = w := by
  induction l with
  | nil => cases hv
  | cons p ps ih =>
    rw [List.map_cons, List.nodup_cons] at h
    rcases List.mem_cons.mp hv with hv1 | hv2 <;> rcases List.mem_cons.mp hw with hw1 | hw2
    · rw [← hv1] at hw1
      have h2 : w = v := by simpa using hw1
      exact h2.symm
    · exfalso
      apply h.1
      have hk : k ∈ ps.map Prod.fst := List.mem_map.mpr ⟨(k, w), hw2, rfl⟩
      rw [← hv1]
      exact hk
    · exfalso
      apply h.1
      have hk : k ∈ ps.map Prod.fst := List.mem_map.mpr ⟨(k, v), hv2, rfl⟩
      rw [← hw1]
      exact hk
    · exact ih h.2 hv2 hw2

/-- C5: an excluded record — its content type configured as excluded or
equal to the designated location type — always appears in the inventory of a
completed crawl with excluded set and missingTagIds empty, whatever its
actual tags; and processing such a record never extracts or enqueues its
outgoing links: the queue and the pending asset set are left untouched while
its row is still recorded. -/
theorem crawl_exclusion_boundary (cfg : CrawlConfig) (repo : Repo) (locale : String)
    (roots tgts : List String) (fuel : Nat) (summary : ScanSummary) (stF : ScanState)
    (h : traverseDescendants cfg repo locale roots tgts fuel = CrawlOutcome.ok summary stF) :
    (∀ r ∈ summary.entries,
      (r.contentType ∈ cfg.excludedContentTypes ∨ r.contentType = "location") →
      r.excluded = true ∧ r.missingTagIds = []) ∧
    (∀ (st : ScanState) (it : String × Nat) (e : CrawlEntry),
      st.visitedEntries.contains it.1 = false →
      repo.entries it.1 = some e →
      entryExcluded cfg e = true →
      processItem cfg repo locale tgts st it =
        some (boundaryState cfg tgts locale st it e) ∧
      (boundaryState cfg tgts locale st it e).queue = st.queue ∧
      (boundaryState cfg tgts locale st it e).visitedAssets = st.visitedAssets ∧
      (it.1, mkEntryRow cfg tgts locale it.1 e) ∈
        (boundaryState cfg tgts locale st it e).entryRows) := by
  obtain ⟨hc, hent⟩ :=
    traverseDescendants_ok_inv cfg repo locale roots tgts fuel summary stF h
  obtain ⟨hinvF, _, _, _⟩ :=
    crawlLoop_main cfg repo locale tgts roots fuel _ stF
      (initScanState_inv cfg repo locale roots) hc
  constructor
  · intro r hr hctp
    rw [hent] at hr
    obtain ⟨p, hp, hpe⟩ := List.mem_map.mp hr
    subst hpe
    obtain ⟨hid, hexeq, hmiss⟩ := hinvF.rowsOK p hp
    have hb : (cfg.excludedContentTypes.contains p.2.contentType ||
        p.2.contentType == "location") = true := by
      rcases hctp with hmem | heq
      · simp [hmem]
      · simp [heq]
    have hexcl : p.2.excluded = true := by rw [hexeq]; exact hb
    exact ⟨hexcl, hmiss hexcl⟩
  · intro st it e hv hf hex
    refine ⟨processItem_boundary cfg repo locale tgts st it e hv hf (Or.inl hex),
      rfl, rfl, ?_⟩
    show (it.1, mkEntryRow cfg tgts locale it.1 e) ∈
      upsert st.entryRows it.1 (mkEntryRow cfg tgts locale it.1 e)
    exact mem_upsert_self _ _ _

/-- C6: in a completed crawl with maxDepth d, every inventory row is
discoverable via a traversal path of at most d edges from a root, so no row
is a record discoverable only beyond depth d; and a record first reached at
depth d is recorded in the inventory but not expanded — its links are not
extracted, nothing is enqueued, the pending asset set is untouched. -/
theorem crawl_depth_bound (cfg : CrawlConfig) (repo : Repo) (locale : String)
    (roots tgts : List String) (fuel : Nat) (summary : ScanSummary) (stF : ScanState)
    (h : traverseDescendants cfg repo locale roots tgts fuel = CrawlOutcome.ok summary stF) :
    (∀ r ∈ summary.entries, ∃ d, d ≤ cfg.maxTraversalDepth ∧
      Discoverable cfg repo locale roots r.id d) ∧
    (∀ (st : ScanState) (it : String × Nat) (e : CrawlEntry),
      st.visitedEntries.contains it.1 = false →
      repo.entries it.1 = some e →
      cfg.maxTraversalDepth ≤ it.2 →
      processItem cfg repo locale tgts st it =
        some (boundaryState cfg tgts locale st it e) ∧
      (boundaryState cfg tgts locale st it e).queue = st.queue ∧
      (boundaryState cfg tgts locale st it e).visitedAssets = st.visitedAssets ∧
      (it.1, mkEntryRow cfg tgts locale it.1 e) ∈
        (boundaryState cfg tgts locale st it e).entryRows) := by
  obtain ⟨hc, hent⟩ :=
    traverseDescendants_ok_inv cfg repo locale roots tgts fuel summary stF h
  obtain ⟨hinvF, _, _, _⟩ :=
    crawlLoop_main cfg repo locale tgts roots fuel _ stF
      (initScanState_inv cfg repo locale roots) hc
  constructor
  · intro r hr
    rw [hent] at hr
    obtain ⟨p, hp, hpe⟩ := List.mem_map.mp hr
    subst hpe
    obtain ⟨hid, _, _⟩ := hinvF.rowsOK p hp
    have hk : p.1 ∈ stF.processedD.map Prod.fst := by
      rw [← hinvF.rowsKeys]
      exact List.mem_map_of_mem _ hp
    obtain ⟨q, hq, hqe⟩ := List.mem_map.mp hk
    obtain ⟨hdisc, hle⟩ := hinvF.discP q hq
    refine ⟨q.2, hle, ?_⟩
    rw [hid, ← hqe]
    exact hdisc
  · intro st it e hv hf hd
    refine ⟨processItem_boundary cfg repo locale tgts st it e hv hf (Or.inr hd),
      rfl, rfl, ?_⟩
    show (it.1, mkEntryRow cfg tgts locale it.1 e) ∈
      upsert st.entryRows it.1 (mkEntryRow cfg tgts locale it.1 e)
    exact mem_upsert_self _ _ _

/-- C3 (amended): a failure fetching a single record is not caught inside
the worker dispatched for it — nothing in the crawl catches per-item fetch
rejections and no unreachable row kind exists — so one rejected fetch (here
a root's) makes the whole traverseDescendants call reject instead of
returning an inventory. -/
theorem crawl_fetch_failure_propagates (cfg : CrawlConfig) (repo : Repo)
    (locale : String) (r : String) (rs tgts : List String) (fuel : Nat)
    (hf : repo.entries r = none) :
    traverseDescendants cfg repo locale (r :: rs) tgts (fuel + 1) =
      CrawlOutcome.fetchErr := by
  have hbatch : ∀ (st0 : ScanState) (rest : List (String × Nat)),
      st0.visitedEntries = [] →
      processBatch cfg repo locale tgts st0 ((r, 0) :: rest) = none := by
    intro st0 rest hv0
    have hstep : processBatch cfg repo locale tgts st0 ((r, 0) :: rest) =
        match processItem cfg repo locale tgts st0 (r, 0) with
        | none => none
        | some st1 => processBatch cfg repo locale tgts st1 rest := rfl
    rw [hstep,
      processItem_fetchFail cfg repo locale tgts st0 (r, 0) (by rw [hv0]; rfl) hf]
  obtain ⟨m, hm⟩ : ∃ m, max 1 cfg.requestConcurrency = m + 1 :=
    ⟨max 1 cfg.requestConcurrency - 1, by omega⟩
  have hloop : crawlLoop cfg repo locale tgts (fuel + 1) (initScanState (r :: rs)) =
      CrawlRes.fetchErr := by
    have hstep : crawlLoop cfg repo locale tgts (fuel + 1) (initScanState (r :: rs)) =
        if (initScanState (r :: rs)).queue.isEmpty then
          CrawlRes.ok (initScanState (r :: rs))
        else
          match processBatch cfg repo locale tgts
              { initScanState (r :: rs) with
                queue := (initScanState (r :: rs)).queue.drop
                  (max 1 cfg.requestConcurrency) }
              ((initScanState (r :: rs)).queue.take (max 1 cfg.requestConcurrency)) with
          | none => CrawlRes.fetchErr
          | some st1 => crawlLoop cfg repo locale tgts fuel st1 := rfl
    rw [hstep]
    have hemp : (initScanState (r :: rs)).queue.isEmpty = false := rfl
    rw [if_neg (by rw [hemp]; simp)]
    have htake : (initScanState (r :: rs)).queue.take (max 1 cfg.requestConcurrency) =
        (r, 0) :: (rs.map (fun i => (i, 0))).take m := by
      rw [hm]
      rfl
    rw [htake, hbatch _ _ rfl]
  unfold traverseDescendants
  rw [hloop]

/-- A repository where every get call rejects. -/
def brokenRepo : Repo :=
  { entries := fun _ => none, assets := fun _ => none }

/-- A plain crawl configuration for the failure counterexample. -/
def plainCfg : CrawlConfig :=
  { excludedContentTypes := [], includeAssetsByDefault := true,
    maxTraversalDepth := 5, requestConcurrency := 4 }

/-- C3 counterexample: with a single root whose fetch rejects, the crawl
call rejects — it does not return an inventory with an unreachable row (no
such row kind exists), so a single failed fetch is not isolated. -/
theorem crawl_fetch_failure_counterexample :
    traverseDescendants plainCfg brokenRepo "en" ["r1"] ["t"] 5 =
      CrawlOutcome.fetchErr := rfl

/-- Sample repository for concrete crawl runs: r1 links an excluded-by-type
entry, a location entry, a regular child chain reaching the depth limit, a
cycle back to r1, a second path to the excluded entry, and one asset. Ids
never fetched by a correct crawl (children of boundaries, or beyond the
depth limit) deliberately reject. -/
def sampleRepo : Repo :=
  { entries := fun i =>
      if i = "r1" then
        some { contentType := some "page"
               fields := [("body", [("en", JVal.arr [JVal.entryLink "loc1",
                 JVal.entryLink "sec1", JVal.entryLink "e3"])]),
                 ("hero", [("en", JVal.assetLink "a1")])]
               tags := [] }
      else if i = "loc1" then
        some { contentType := some "location"
               fields := [("body", [("en", JVal.entryLink "hidden")])]
               tags := [] }
      else if i = "sec1" then
        some { contentType := some "secret"
               fields := [("x", [("en", JVal.entryLink "hidden")])]
               tags := [] }
      else if i = "e3" then
        some { contentType := some "page"
               fields := [("links", [("en", JVal.arr [JVal.entryLink "e4",
                 JVal.entryLink "r1", JVal.entryLink "sec1"])])]
               tags := [] }
      else if i = "e4" then
        some { contentType := some "page"
               fields := [("l", [("en", JVal.entryLink "e5")])]
               tags := [] }
      else none
    assets := fun i =>
      if i = "a1" then
        some { fields := [("title", [("en", JVal.strv "Asset One")])], tags := [] }
      else none }

/-- Configuration of the sample crawl: secret is excluded, assets included,
depth limit 2, two workers. -/
def sampleCrawlCfg : CrawlConfig :=
  { excludedContentTypes := ["secret"], includeAssetsByDefault := true,
    maxTraversalDepth := 2, requestConcurrency := 2 }

/-- The sample crawl run. -/
def sampleCrawlOut : CrawlOutcome :=
  traverseDescendants sampleCrawlCfg sampleRepo "en" ["r1"] ["t"] 6

/-- Summary of the sample crawl run. -/
def sampleSummary : ScanSummary :=
  match sampleCrawlOut with
  | CrawlOutcome.ok s _ => s
  | _ => { roots := [], targetTagIds := [], entries := [], assets := [] }

/-- Final engine state of the sample crawl run. -/
def sampleFinalState : ScanState :=
  match sampleCrawlOut with
  | CrawlOutcome.ok _ st => st
  | _ => initScanState []

/-- Concrete instantiation of crawl_exclusion_boundary on the sample crawl,
whose inventory contains a location row and an excluded-type row reached
while both hold outgoing links. -/
theorem crawl_exclusion_boundary_witness :
    traverseDescendants sampleCrawlCfg sampleRepo "en" ["r1"] ["t"] 6 =
      CrawlOutcome.ok sampleSummary sampleFinalState ∧
    ((∀ r ∈ sampleSummary.entries,
      (r.contentType ∈ sampleCrawlCfg.excludedContentTypes ∨
        r.contentType = "location") →
      r.excluded = true ∧ r.missingTagIds = []) ∧
     (∀ (st : ScanState) (it : String × Nat) (e : CrawlEntry),
      st.visitedEntries.contains it.1 = false →
      sampleRepo.entries it.1 = some e →
      entryExcluded sampleCrawlCfg e = true →
      processItem sampleCrawlCfg sampleRepo "en" ["t"] st it =
        some (boundaryState sampleCrawlCfg ["t"] "en" st it e) ∧
      (boundaryState sampleCrawlCfg ["t"] "en" st it e).queue = st.queue ∧
      (boundaryState sampleCrawlCfg ["t"] "en" st it e).visitedAssets =
        st.visitedAssets ∧
      (it.1, mkEntryRow sampleCrawlCfg ["t"] "en" it.1 e) ∈
        (boundaryState sampleCrawlCfg ["t"] "en" st it e).entryRows)) :=
  ⟨rfl, crawl_exclusion_boundary sampleCrawlCfg sampleRepo "en" ["r1"] ["t"] 6
      sampleSummary sampleFinalState rfl⟩

/-- Concrete instantiation of crawl_depth_bound on the sample crawl, whose
entry e4 sits exactly at the depth limit and is reported unexpanded. -/
theorem crawl_depth_bound_witness :
    traverseDescendants sampleCrawlCfg sampleRepo "en" ["r1"] ["t"] 6 =
      CrawlOutcome.ok sampleSummary sampleFinalState ∧
    ((∀ r ∈ sampleSummary.entries, ∃ d, d ≤ sampleCrawlCfg.maxTraversalDepth ∧
      Discoverable sampleCrawlCfg sampleRepo "en" ["r1"] r.id d) ∧
     (∀ (st : ScanState) (it : String × Nat) (e : CrawlEntry),
      st.visitedEntries.contains it.1 = false →
      sampleRepo.entries it.1 = some e →
      sampleCrawlCfg.maxTraversalDepth ≤ it.2 →
      processItem sampleCrawlCfg sampleRepo "en" ["t"] st it =
        some (boundaryState sampleCrawlCfg ["t"] "en" st it e) ∧
      (boundaryState sampleCrawlCfg ["t"] "en" st it e).queue = st.queue ∧
      (boundaryState sampleCrawlCfg ["t"] "en" st it e).visitedAssets =
        st.visitedAssets ∧
      (it.1, mkEntryRow sampleCrawlCfg ["t"] "en" it.1 e) ∈
        (boundaryState sampleCrawlCfg ["t"] "en" st it e).entryRows)) :=
  ⟨rfl, crawl_depth_bound sampleCrawlCfg sampleRepo "en" ["r1"] ["t"] 6
      sampleSummary sampleFinalState rfl⟩

/-- Concrete instantiation of crawl_fetch_failure_propagates: one root whose
fetch rejects makes the crawl call reject. -/
theorem crawl_fetch_failure_propagates_witness :
    brokenRepo.entries "r1" = none ∧
    traverseDescendants plainCfg brokenRepo "en" ("r1" :: []) ["t"] (4 + 1) =
      CrawlOutcome.fetchErr :=
  ⟨rfl, crawl_fetch_failure_propagates plainCfg brokenRepo "en" "r1" [] ["t"] 4 rfl⟩

/-- Phase one of a wave of traverseDescendants: batch.map runs every
worker's synchronous prefix in batch order before any fetch resolves — skip
when the id is already visited, else mark it visited and keep the item as a
claim. Returns the state with all claims marked and the claimed items in
batch order. -/
def claimBatch : ScanState → List (String × Nat) → ScanState × List (String × Nat)
  | st, [] => (st, [])
  | st, it :: rest =>
    if st.visitedEntries.contains it.1 then claimBatch st rest
    else
      let res := claimBatch { st with
        visitedEntries := st.visitedEntries ++ [it.1] } rest
      (res.1, it :: res.2)

/-- The post-await block of one wave worker, for an item it claimed: fetch —
a rejection is caught nowhere and rejects the crawl — record the row, and
unless the entry is excluded or at the depth limit, enqueue the extracted
entry links not in the visited set (which in the source already holds every
claim of the wave) and collect the asset links. The visited set itself is
written only by the claim prefixes, never here. -/
def processClaimed (cfg : CrawlConfig) (repo : Repo) (locale : String)
    (targetTagIds : List String) (st : ScanState) (it : String × Nat) :
    Option ScanState :=
  match repo.entries it.1 with
  | none => none
  | some e =>
    let st2 := { st with
      entryRows := upsert st.entryRows it.1 (mkEntryRow cfg targetTagIds locale it.1 e)
      processedD := st.processedD ++ [it] }
    if entryExcluded cfg e then some st2
    else if cfg.maxTraversalDepth ≤ it.2 then some st2
    else
      let st3 := { st2 with
        queue := st2.queue ++ expandItems e locale st2.visitedEntries it.2 }
      some (if cfg.includeAssetsByDefault then
          { st3 with visitedAssets :=
              addAssetIds (extractEntryLinks e locale).assetIds st3.visitedAssets }
        else st3)

/-- Phase two of a wave: each claimed item's post-await block runs
synchronously and the blocks of one wave touch disjoint row keys, so the
wave's effect is their sequential composition in fetch-completion order —
an arbitrary permutation of the claims. -/
def processWave (cfg : CrawlConfig) (repo : Repo) (locale : String)
    (targetTagIds : List String) : ScanState → List (String × Nat) → Option ScanState
  | st, [] => some st
  | st, it :: rest =>
    match processClaimed cfg repo locale targetTagIds st it with
    | none => none
    | some st' => processWave cfg repo locale targetTagIds st' rest

/-- The wave loop of traverseDescendants under an explicit completion
schedule: wave w claims its batch in batch order and then completes the
claimed items in the order sched w gives — faithful whenever that order is
a permutation of the claims. Batch-order completion is the serialized
crawlLoop. -/
def crawlLoopSched (cfg : CrawlConfig) (repo : Repo) (locale : String)
    (targetTagIds : List String)
    (sched : Nat → List (String × Nat) → List (String × Nat)) :
    Nat → Nat → ScanState → CrawlRes
  | _, 0, st => if st.queue.isEmpty then CrawlRes.ok st else CrawlRes.fuelOut
  | w, fuel + 1, st =>
    if st.queue.isEmpty then CrawlRes.ok st
    else
      let batch := st.queue.take (max 1 cfg.requestConcurrency)
      let st0 := { st with queue := st.queue.drop (max 1 cfg.requestConcurrency) }
      let claimed := claimBatch st0 batch
      match processWave cfg repo locale targetTagIds claimed.1 (sched w claimed.2) with
      | none => CrawlRes.fetchErr
      | some st' => crawlLoopSched cfg repo locale targetTagIds sched (w + 1) fuel st'

/-- traverseDescendants under an explicit per-wave completion schedule. -/
def traverseDescendantsSched (cfg : CrawlConfig) (repo : Repo) (locale : String)
    (rootEntryIds targetTagIds : List String)
    (sched : Nat → List (String × Nat) → List (String × Nat)) (fuel : Nat) :
    CrawlOutcome :=
  match crawlLoopSched cfg repo locale targetTagIds sched 0 fuel
      (initScanState rootEntryIds) with
  | CrawlRes.fetchErr => CrawlOutcome.fetchErr
  | CrawlRes.fuelOut => CrawlOutcome.fuelOut
  | CrawlRes.ok st =>
    match assetPhase cfg repo locale targetTagIds st with
    | none => CrawlOutcome.fetchErr
    | some assetRows =>
      CrawlOutcome.ok
        { roots := rootEntryIds
          targetTagIds := targetTagIds
          entries := st.entryRows.map (·.2)
          assets := assetRows.map (·.2) } st

lemma discoverable_le (cfg : CrawlConfig) (repo : Repo) (locale : String)
    (roots : List String) {i : String} {d : Nat}
    (h : Discoverable cfg repo locale roots i d) : d ≤ cfg.maxTraversalDepth := by
  induction h with
  | root _ => exact Nat.zero_le _
  | child _ _ _ hdlt _ _ => omega

/-- Schedule-independent invariant of the claimed-wave loop, stated relative
to the claims of the current wave not yet completed, in any order. The
visited set is duplicate-free and covers exactly the processed and pending
claimed ids, each id is processed or claimed at most once, the row map keys
are the processed ids in order, rows are well formed, and pending, queued
and processed pairs are discoverable at their recorded depths. No ordering
of depths is assumed: completion races lose the FIFO depth discipline. -/
structure WaveInv (cfg : CrawlConfig) (repo : Repo) (locale : String)
    (roots : List String) (st : ScanState) (pend : List (String × Nat)) : Prop where
  visNodup : st.visitedEntries.Nodup
  visCover : ∀ i, i ∈ st.visitedEntries ↔
    i ∈ st.processedD.map Prod.fst ∨ i ∈ pend.map Prod.fst
  procNodup : (st.processedD.map Prod.fst ++ pend.map Prod.fst).Nodup
  rowsKeys : st.entryRows.map Prod.fst = st.processedD.map Prod.fst
  rowsOK : ∀ p ∈ st.entryRows, p.2.id = p.1 ∧
    p.2.excluded = (cfg.excludedContentTypes.contains p.2.contentType ||
      p.2.contentType == "location") ∧
    (p.2.excluded = true → p.2.missingTagIds = [])
  discQ : ∀ a ∈ pend ++ st.queue, Discoverable cfg repo locale roots a.1 a.2
  discP : ∀ a ∈ st.processedD, Discoverable cfg repo locale roots a.1 a.2

lemma claimBatch_spec : ∀ (batch : List (String × Nat)) (st : ScanState),
    (claimBatch st batch).1.visitedEntries =
      st.visitedEntries ++ (claimBatch st batch).2.map Prod.fst ∧
    (claimBatch st batch).1.visitedAssets = st.visitedAssets ∧
    (claimBatch st batch).1.entryRows = st.entryRows ∧
    (claimBatch st batch).1.queue = st.queue ∧
    (claimBatch st batch).1.processedD = st.processedD ∧
    (∀ a ∈ (claimBatch st batch).2, a ∈ batch) ∧
    ((claimBatch st batch).2.map Prod.fst).Nodup ∧
    (∀ a ∈ (claimBatch st batch).2, a.1 ∉ st.visitedEntries) := by
  intro batch
  induction batch with
  | nil =>
    intro st
    refine ⟨by simp [claimBatch], rfl, rfl, rfl, rfl, ?_, by simp [claimBatch], ?_⟩
    · intro a ha
      simp [claimBatch] at ha
    · intro a ha
      simp [claimBatch] at ha
  | cons it rest ih =>
    intro st
    have hstep : claimBatch st (it :: rest) =
        if st.visitedEntries.contains it.1 then claimBatch st rest
        else
          ((claimBatch { st with
              visitedEntries := st.visitedEntries ++ [it.1] } rest).1,
            it :: (claimBatch { st with
              visitedEntries := st.visitedEntries ++ [it.1] } rest).2) := rfl
    cases hv : st.visitedEntries.contains it.1 with
    | true =>
      rw [hstep, if_pos hv]
      obtain ⟨h1, h2, h3, h4, h5, h6, h7, h8⟩ := ih st
      exact ⟨h1, h2, h3, h4, h5, fun a ha => List.mem_cons_of_mem _ (h6 a ha), h7, h8⟩
    | false =>
      have hfst : (claimBatch st (it :: rest)).1 =
          (claimBatch { st with
            visitedEntries := st.visitedEntries ++ [it.1] } rest).1 := by
        rw [hstep, if_neg (by rw [hv]; simp)]
      have hsnd : (claimBatch st (it :: rest)).2 =
          it :: (claimBatch { st with
            visitedEntries := st.visitedEntries ++ [it.1] } rest).2 := by
        rw [hstep, if_neg (by rw [hv]; simp)]
      obtain ⟨h1, h2, h3, h4, h5, h6, h7, h8⟩ :=
        ih { st with visitedEntries := st.visitedEntries ++ [it.1] }
      have hitfresh : it.1 ∉ st.visitedEntries := by simpa using hv
      refine ⟨?_, ?_, ?_, ?_, ?_, ?_, ?_, ?_⟩
      · rw [hfst, hsnd, h1, List.map_cons]
        simp
      · rw [hfst]
        exact h2
      · rw [hfst]
        exact h3
      · rw [hfst]
        exact h4
      · rw [hfst]
        exact h5
      · intro a ha
        rw [hsnd] at ha
        rcases List.mem_cons.mp ha with h | h
        · rw [h]
          exact List.mem_cons_self _ _
        · exact List.mem_cons_of_mem _ (h6 a h)
      · rw [hsnd, List.map_cons]
        refine List.nodup_cons.mpr ⟨?_, h7⟩
        intro hm
        obtain ⟨a, haA, hae⟩ := List.mem_map.mp hm
        apply h8 a haA
        rw [hae]
        exact List.mem_append_right _ (List.mem_singleton.mpr rfl)
      · intro a ha
        rw [hsnd] at ha
        rcases List.mem_cons.mp ha with h | h
        · rw [h]
          exact hitfresh
        · intro hm
          apply h8 a h
          exact List.mem_append_left _ hm

lemma waveInv_perm (cfg : CrawlConfig) (repo : Repo) (locale : String)
    (roots : List String) {st : ScanState} {pend pend' : List (String × Nat)}
    (hp : pend.Perm pend') (hinv : WaveInv cfg repo locale roots st pend) :
    WaveInv cfg repo locale roots st pend' := by
  refine ⟨hinv.visNodup, ?_, ?_, hinv.rowsKeys, hinv.rowsOK, ?_, hinv.discP⟩
  · intro i
    rw [hinv.visCover i]
    have hm := (hp.map Prod.fst).mem_iff (a := i)
    tauto
  · have hperm : (st.processedD.map Prod.fst ++ pend.map Prod.fst).Perm
        (st.processedD.map Prod.fst ++ pend'.map Prod.fst) :=
      List.Perm.append_left _ (hp.map Prod.fst)
    exact hperm.nodup hinv.procNodup
  · intro a ha
    apply hinv.discQ a
    have hm := (hp.append_right st.queue).mem_iff (a := a)
    tauto

/-- The state processClaimed yields for a boundary — excluded or at-limit —
claim: the row is recorded and the item is logged processed, nothing else
moves. -/
def claimedBoundaryState (cfg : CrawlConfig) (tgts : List String) (locale : String)
    (st : ScanState) (it : String × Nat) (e : CrawlEntry) : ScanState :=
  { st with
    entryRows := upsert st.entryRows it.1 (mkEntryRow cfg tgts locale it.1 e)
    processedD := st.processedD ++ [it] }

/-- The state processClaimed yields for an expanded claim. -/
def claimedExpandState (cfg : CrawlConfig) (tgts : List String) (locale : String)
    (st : ScanState) (it : String × Nat) (e : CrawlEntry) : ScanState :=
  { st with
    entryRows := upsert st.entryRows it.1 (mkEntryRow cfg tgts locale it.1 e)
    processedD := st.processedD ++ [it]
    queue := st.queue ++ expandItems e locale st.visitedEntries it.2
    visitedAssets :=
      if cfg.includeAssetsByDefault then
        addAssetIds (extractEntryLinks e locale).assetIds st.visitedAssets
      else st.visitedAssets }

lemma processClaimed_boundary (cfg : CrawlConfig) (repo : Repo) (locale : String)
    (tgts : List String) (st : ScanState) (it : String × Nat) (e : CrawlEntry)
    (hf : repo.entries it.1 = some e)
    (hstop : entryExcluded cfg e = true ∨ cfg.maxTraversalDepth ≤ it.2) :
    processClaimed cfg repo locale tgts st it =
      some (claimedBoundaryState cfg tgts locale st it e) := by
  unfold processClaimed claimedBoundaryState
  rcases hstop with hex | hd
  · simp [hf, hex]
  · by_cases hex : entryExcluded cfg e = true
    · simp [hf, hex]
    · simp [hf, hex, hd]

lemma processClaimed_expand (cfg : CrawlConfig) (repo : Repo) (locale : String)
    (tgts : List String) (st : ScanState) (it : String × Nat) (e : CrawlEntry)
    (hf : repo.entries it.1 = some e)
    (hex : entryExcluded cfg e = false)
    (hd : it.2 < cfg.maxTraversalDepth) :
    processClaimed cfg repo locale tgts st it =
      some (claimedExpandState cfg tgts locale st it e) := by
  unfold processClaimed claimedExpandState
  have hd' : ¬(cfg.maxTraversalDepth ≤ it.2) := not_le.mpr hd
  by_cases hinc : cfg.includeAssetsByDefault = true
  · simp [hf, hex, hd', hinc]
  · simp [hf, hex, hd', hinc]

lemma processClaimed_winv (cfg : CrawlConfig) (repo : Repo) (locale : String)
    (tgts roots : List String) {st st' : ScanState} {it : String × Nat}
    {pend : List (String × Nat)}
    (hinv : WaveInv cfg repo locale roots st (it :: pend))
    (h : processClaimed cfg repo locale tgts st it = some st') :
    WaveInv cfg repo locale roots st' pend := by
  have hdisc : Discoverable cfg repo locale roots it.1 it.2 :=
    hinv.discQ it (by simp)
  obtain ⟨hnP, hnpend, hdisj⟩ := List.nodup_append.mp hinv.procNodup
  have hfreshP : it.1 ∉ st.processedD.map Prod.fst := by
    intro hmem
    exact hdisj hmem (by simp)
  cases hf : repo.entries it.1 with
  | none =>
    unfold processClaimed at h
    rw [hf] at h
    exact Option.noConfusion h
  | some e =>
    have hrowsfind : st.entryRows.find? (fun p => p.1 = it.1) = none := by
      rw [List.find?_eq_none]
      intro p hp
      simp only [decide_eq_true_eq]
      intro hk
      apply hfreshP
      rw [← hinv.rowsKeys]
      exact hk ▸ List.mem_map_of_mem _ hp
    have hups : upsert st.entryRows it.1 (mkEntryRow cfg tgts locale it.1 e) =
        st.entryRows ++ [(it.1, mkEntryRow cfg tgts locale it.1 e)] :=
      upsert_fresh _ hrowsfind
    have hvisCover : ∀ i, i ∈ st.visitedEntries ↔
        i ∈ (st.processedD ++ [it]).map Prod.fst ∨ i ∈ pend.map Prod.fst := by
      intro i
      rw [hinv.visCover i]
      simp only [List.map_append, List.map_cons, List.mem_append, List.mem_cons,
        List.map_nil, List.mem_singleton, List.not_mem_nil, or_false]
      tauto
    have hnodup' : ((st.processedD ++ [it]).map Prod.fst ++
        pend.map Prod.fst).Nodup := by
      have heq : st.processedD.map Prod.fst ++ (it :: pend).map Prod.fst =
          (st.processedD ++ [it]).map Prod.fst ++ pend.map Prod.fst := by
        simp
      rw [← heq]
      exact hinv.procNodup
    have hrowsKeys' : ((st.entryRows ++
        [(it.1, mkEntryRow cfg tgts locale it.1 e)]).map Prod.fst) =
        (st.processedD ++ [it]).map Prod.fst := by
      rw [List.map_append, List.map_append, hinv.rowsKeys]
      simp
    have hrowsOK' : ∀ p ∈ st.entryRows ++ [(it.1, mkEntryRow cfg tgts locale it.1 e)],
        p.2.id = p.1 ∧
        p.2.excluded = (cfg.excludedContentTypes.contains p.2.contentType ||
          p.2.contentType == "location") ∧
        (p.2.excluded = true → p.2.missingTagIds = []) := by
      intro p hp
      rcases List.mem_append.mp hp with hold | hnew
      · exact hinv.rowsOK p hold
      · have heq : p = (it.1, mkEntryRow cfg tgts locale it.1 e) := by simpa using hnew
        subst heq
        exact mkEntryRow_wf cfg tgts locale it.1 e
    have hdiscP' : ∀ a ∈ st.processedD ++ [it],
        Discoverable cfg repo locale roots a.1 a.2 := by
      intro a ha
      rcases List.mem_append.mp ha with hold | hnew
      · exact hinv.discP a hold
      · have heq : a = it := by simpa using hnew
        rw [heq]
        exact hdisc
    by_cases hstop : entryExcluded cfg e = true ∨ cfg.maxTraversalDepth ≤ it.2
    · rw [processClaimed_boundary cfg repo locale tgts st it e hf hstop] at h
      obtain rfl := Option.some.inj h
      refine ⟨hinv.visNodup, hvisCover, hnodup', ?_, ?_, ?_, hdiscP'⟩
      · show (upsert st.entryRows it.1 (mkEntryRow cfg tgts locale it.1 e)).map
            Prod.fst = _
        rw [hups]
        exact hrowsKeys'
      · intro p hp
        rw [show (claimedBoundaryState cfg tgts locale st it e).entryRows =
            upsert st.entryRows it.1 (mkEntryRow cfg tgts locale it.1 e) from rfl,
          hups] at hp
        exact hrowsOK' p hp
      · intro a ha
        apply hinv.discQ a
        rw [List.cons_append]
        exact List.mem_cons_of_mem _ ha
    · push_neg at hstop
      have hex : entryExcluded cfg e = false := Bool.eq_false_iff.mpr hstop.1
      have hd : it.2 < cfg.maxTraversalDepth := hstop.2
      rw [processClaimed_expand cfg repo locale tgts st it e hf hex hd] at h
      obtain rfl := Option.some.inj h
      have hnewsdepth := expandItems_depth e locale st.visitedEntries it.2
      have hnewsmem := expandItems_mem e locale st.visitedEntries it.2
      have hqe : (claimedExpandState cfg tgts locale st it e).queue =
          st.queue ++ expandItems e locale st.visitedEntries it.2 := rfl
      refine ⟨hinv.visNodup, hvisCover, hnodup', ?_, ?_, ?_, hdiscP'⟩
      · show (upsert st.entryRows it.1 (mkEntryRow cfg tgts locale it.1 e)).map
            Prod.fst = _
        rw [hups]
        exact hrowsKeys'
      · intro p hp
        rw [show (claimedExpandState cfg tgts locale st it e).entryRows =
            upsert st.entryRows it.1 (mkEntryRow cfg tgts locale it.1 e) from rfl,
          hups] at hp
        exact hrowsOK' p hp
      · intro a ha
        rw [hqe] at ha
        rw [← List.append_assoc] at ha
        rcases List.mem_append.mp ha with ha' | ha'
        · apply hinv.discQ a
          rw [List.cons_append]
          exact List.mem_cons_of_mem _ ha'
        · have ha2 := hnewsdepth a ha'
          have hchild : Discoverable cfg repo locale roots a.1 (it.2 + 1) :=
            Discoverable.child hdisc hf hex hd (hnewsmem a ha')
          rw [ha2]
          exact hchild

lemma processWave_winv (cfg : CrawlConfig) (repo : Repo) (locale : String)
    (tgts roots : List String) :
    ∀ (order pend : List (String × Nat)) (st st' : ScanState),
      order.Perm pend →
      WaveInv cfg repo locale roots st pend →
      processWave cfg repo locale tgts st order = some st' →
      WaveInv cfg repo locale roots st' [] := by
  intro order
  induction order with
  | nil =>
    intro pend st st' hperm hinv h
    obtain rfl : st = st' := Option.some.inj h
    have hpend : pend = [] := hperm.symm.eq_nil
    rw [hpend] at hinv
    exact hinv
  | cons it rest ih =>
    intro pend st st' hperm hinv h
    have hstep : processWave cfg repo locale tgts st (it :: rest) =
        match processClaimed cfg repo locale tgts st it with
        | none => none
        | some st1 => processWave cfg repo locale tgts st1 rest := rfl
    rw [hstep] at h
    have hinv1 : WaveInv cfg repo locale roots st (it :: rest) :=
      waveInv_perm cfg repo locale roots hperm.symm hinv
    cases hpc : processClaimed cfg repo locale tgts st it with
    | none =>
      rw [hpc] at h
      exact Option.noConfusion h
    | some st1 =>
      rw [hpc] at h
      exact ih rest st1 st' (List.Perm.refl rest)
        (processClaimed_winv cfg repo locale tgts roots hinv1 hpc) h

lemma claimBatch_winv (cfg : CrawlConfig) (repo : Repo) (locale : String)
    (roots : List String) (st stq : ScanState) (batch : List (String × Nat))
    (hst : stq.visitedEntries = st.visitedEntries ∧ stq.entryRows = st.entryRows ∧
      stq.processedD = st.processedD)
    (hinv : WaveInv cfg repo locale roots st [])
    (hbatch : ∀ a ∈ batch, a ∈ st.queue)
    (hq : ∀ a ∈ stq.queue, a ∈ st.queue) :
    WaveInv cfg repo locale roots (claimBatch stq batch).1 (claimBatch stq batch).2 := by
  obtain ⟨hstV, hstR, hstP⟩ := hst
  obtain ⟨hvis, _, hrows, hque, hproc, hsubB, hnodupA, hfresh⟩ :=
    claimBatch_spec batch stq
  have hfresh' : ∀ a ∈ (claimBatch stq batch).2, a.1 ∉ st.visitedEntries := by
    intro a ha
    rw [← hstV]
    exact hfresh a ha
  refine ⟨?_, ?_, ?_, ?_, ?_, ?_, ?_⟩
  · rw [hvis, hstV]
    refine List.Nodup.append hinv.visNodup hnodupA ?_
    intro i hi hib
    obtain ⟨a, haA, hae⟩ := List.mem_map.mp hib
    apply hfresh' a haA
    rw [hae]
    exact hi
  · intro i
    rw [hvis, hstV, hproc, hstP, List.mem_append]
    have hv0 := hinv.visCover i
    simp only [List.map_nil, List.not_mem_nil, or_false] at hv0
    rw [hv0]
  · rw [hproc, hstP]
    have h0 : (st.processedD.map Prod.fst).Nodup := by simpa using hinv.procNodup
    refine List.Nodup.append h0 hnodupA ?_
    intro i hi hib
    obtain ⟨a, haA, hae⟩ := List.mem_map.mp hib
    apply hfresh' a haA
    rw [hae]
    exact (hinv.visCover i).mpr (Or.inl hi)
  · rw [hrows, hproc, hstR, hstP]
    exact hinv.rowsKeys
  · rw [hrows, hstR]
    exact hinv.rowsOK
  · intro a ha
    rw [hque] at ha
    rcases List.mem_append.mp ha with haA | haQ
    · exact hinv.discQ a (by simpa using hbatch a (hsubB a haA))
    · exact hinv.discQ a (by simpa using hq a haQ)
  · rw [hproc, hstP]
    exact hinv.discP

lemma initScanState_winv (cfg : CrawlConfig) (repo : Repo) (locale : String)
    (roots : List String) :
    WaveInv cfg repo locale roots (initScanState roots) [] := by
  refine ⟨List.nodup_nil, ?_, ?_, rfl, ?_, ?_, ?_⟩
  · intro i
    simp [initScanState]
  · simp [initScanState]
  · intro p hp
    exact absurd hp (List.not_mem_nil p)
  · intro a ha
    simp only [initScanState, List.nil_append] at ha
    obtain ⟨i, hi, hie⟩ := List.mem_map.mp ha
    rw [← hie]
    exact Discoverable.root hi
  · intro a ha
    exact absurd ha (List.not_mem_nil a)

lemma crawlLoopSched_winv (cfg : CrawlConfig) (repo : Repo) (locale : String)
    (tgts roots : List String)
    (sched : Nat → List (String × Nat) → List (String × Nat))
    (hsched : ∀ w l, (sched w l).Perm l) :
    ∀ (fuel w : Nat) (st stF : ScanState),
      WaveInv cfg repo locale roots st [] →
      crawlLoopSched cfg repo locale tgts sched w fuel st = CrawlRes.ok stF →
      WaveInv cfg repo locale roots stF [] := by
  intro fuel
  induction fuel with
  | zero =>
    intro w st stF hinv h
    have hstep : crawlLoopSched cfg repo locale tgts sched w 0 st =
        if st.queue.isEmpty then CrawlRes.ok st else CrawlRes.fuelOut := rfl
    rw [hstep] at h
    by_cases hqe : st.queue.isEmpty = true
    · rw [if_pos hqe] at h
      have hse : st = stF := by injection h
      subst hse
      exact hinv
    · rw [if_neg hqe] at h
      exact CrawlRes.noConfusion h
  | succ fuel ihf =>
    intro w st stF hinv h
    have hstep : crawlLoopSched cfg repo locale tgts sched w (fuel + 1) st =
        if st.queue.isEmpty then CrawlRes.ok st
        else
          match processWave cfg repo locale tgts
              (claimBatch
                { st with queue := st.queue.drop (max 1 cfg.requestConcurrency) }
                (st.queue.take (max 1 cfg.requestConcurrency))).1
              (sched w (claimBatch
                { st with queue := st.queue.drop (max 1 cfg.requestConcurrency) }
                (st.queue.take (max 1 cfg.requestConcurrency))).2) with
          | none => CrawlRes.fetchErr
          | some st' => crawlLoopSched cfg repo locale tgts sched (w + 1) fuel st' := rfl
    rw [hstep] at h
    by_cases hqe : st.queue.isEmpty = true
    · rw [if_pos hqe] at h
      have hse : st = stF := by injection h
      subst hse
      exact hinv
    · rw [if_neg hqe] at h
      have hwinv : WaveInv cfg repo locale roots
          (claimBatch { st with queue := st.queue.drop (max 1 cfg.requestConcurrency) }
            (st.queue.take (max 1 cfg.requestConcurrency))).1
          (claimBatch { st with queue := st.queue.drop (max 1 cfg.requestConcurrency) }
            (st.queue.take (max 1 cfg.requestConcurrency))).2 :=
        claimBatch_winv cfg repo locale roots st
          { st with queue := st.queue.drop (max 1 cfg.requestConcurrency) }
          (st.queue.take (max 1 cfg.requestConcurrency))
          ⟨rfl, rfl, rfl⟩ hinv
          (fun a ha => List.mem_of_mem_take ha)
          (fun a ha => List.mem_of_mem_drop ha)
      cases hpw : processWave cfg repo locale tgts
          (claimBatch { st with queue := st.queue.drop (max 1 cfg.requestConcurrency) }
            (st.queue.take (max 1 cfg.requestConcurrency))).1
          (sched w (claimBatch
            { st with queue := st.queue.drop (max 1 cfg.requestConcurrency) }
            (st.queue.take (max 1 cfg.requestConcurrency))).2) with
      | none =>
        rw [hpw] at h
        exact CrawlRes.noConfusion h
      | some st1 =>
        rw [hpw] at h
        exact ihf (w + 1) st1 stF
          (processWave_winv cfg repo locale tgts roots _ _ _ _ (hsched w _) hwinv hpw) h

lemma traverseDescendantsSched_ok_inv (cfg : CrawlConfig) (repo : Repo)
    (locale : String) (roots tgts : List String)
    (sched : Nat → List (String × Nat) → List (String × Nat)) (fuel : Nat)
    (summary : ScanSummary) (stF : ScanState)
    (h : traverseDescendantsSched cfg repo locale roots tgts sched fuel =
      CrawlOutcome.ok summary stF) :
    crawlLoopSched cfg repo locale tgts sched 0 fuel (initScanState roots) =
      CrawlRes.ok stF ∧
    summary.entries = stF.entryRows.map Prod.snd := by
  unfold traverseDescendantsSched at h
  cases hc : crawlLoopSched cfg repo locale tgts sched 0 fuel (initScanState roots) with
  | fetchErr =>
    rw [hc] at h
    exact CrawlOutcome.noConfusion h
  | fuelOut =>
    rw [hc] at h
    exact CrawlOutcome.noConfusion h
  | ok st =>
    rw [hc] at h
    have h' : (match assetPhase cfg repo locale tgts st with
        | none => CrawlOutcome.fetchErr
        | some assetRows =>
          CrawlOutcome.ok
            { roots := roots, targetTagIds := tgts,
              entries := st.entryRows.map (fun x => x.2),
              assets := assetRows.map (fun x => x.2) } st) =
        CrawlOutcome.ok summary stF := h
    cases hap : assetPhase cfg repo locale tgts st with
    | none =>
      rw [hap] at h'
      exact CrawlOutcome.noConfusion h'
    | some rows =>
      rw [hap] at h'
      injection h' with h1 h2
      subst h2
      exact ⟨rfl, by rw [← h1]⟩

/-- C7 (amended): under every within-wave fetch-completion order — wave w's
claimed items completing in the arbitrary permutation sched w of the claims
— a completed crawl holds exactly one inventory row per record: the row ids
are duplicate-free, a record has a row exactly when it was processed, and
its processed depth is unique and is a depth at which the record is
discoverable along traversal edges, hence within the depth limit. Under
batch-order completion — the serialized Promise.all linearization that
crawlLoop embeds — the processed depth is moreover the minimum of all
depths at which the record is discoverable from the roots. That equality is
schedule-dependent and fails under other completion orders: see the
counterexample. -/
theorem crawl_dedup_depth_all_orders (cfg : CrawlConfig) (repo : Repo)
    (locale : String) (roots tgts : List String)
    (sched : Nat → List (String × Nat) → List (String × Nat)) (fuel fuelL : Nat)
    (summary summaryL : ScanSummary) (stF stL : ScanState)
    (hsched : ∀ w l, (sched w l).Perm l)
    (hs : traverseDescendantsSched cfg repo locale roots tgts sched fuel =
      CrawlOutcome.ok summary stF)
    (hl : traverseDescendants cfg repo locale roots tgts fuelL =
      CrawlOutcome.ok summaryL stL) :
    (summary.entries.map (fun r => r.id)).Nodup ∧
    (∀ i pd, (i, pd) ∈ stF.processedD →
      Discoverable cfg repo locale roots i pd ∧ pd ≤ cfg.maxTraversalDepth) ∧
    (∀ i pd pd', (i, pd) ∈ stF.processedD → (i, pd') ∈ stF.processedD → pd = pd') ∧
    (∀ i, (∃ r ∈ summary.entries, r.id = i) ↔ ∃ pd, (i, pd) ∈ stF.processedD) ∧
    (∀ i d, Discoverable cfg repo locale roots i d →
      ∃ pd, pd ≤ d ∧ (i, pd) ∈ stL.processedD) := by
  obtain ⟨hc, hent⟩ :=
    traverseDescendantsSched_ok_inv cfg repo locale roots tgts sched fuel summary stF hs
  have hwinvF : WaveInv cfg repo locale roots stF [] :=
    crawlLoopSched_winv cfg repo locale tgts roots sched hsched fuel 0 _ stF
      (initScanState_winv cfg repo locale roots) hc
  have hprocN : (stF.processedD.map Prod.fst).Nodup := by
    simpa using hwinvF.procNodup
  refine ⟨?_, ?_, ?_, ?_, ?_⟩
  · have hmapeq : summary.entries.map (fun r => r.id) = stF.entryRows.map Prod.fst := by
      rw [hent, List.map_map]
      apply List.map_congr_left
      intro p hp
      exact (hwinvF.rowsOK p hp).1
    rw [hmapeq, hwinvF.rowsKeys]
    exact hprocN
  · intro i pd hm
    have hd := hwinvF.discP (i, pd) hm
    exact ⟨hd, discoverable_le cfg repo locale roots hd⟩
  · intro i pd pd' hm hm'
    exact nodup_keys_eq hprocN hm hm'
  · intro i
    constructor
    · rintro ⟨r, hr, hrid⟩
      rw [hent] at hr
      obtain ⟨p, hp, hpe⟩ := List.mem_map.mp hr
      have hpk : p.1 = i := by
        rw [← ((hwinvF.rowsOK p hp).1), hpe, hrid]
      have hk : i ∈ stF.processedD.map Prod.fst := by
        rw [← hpk, ← hwinvF.rowsKeys]
        exact List.mem_map_of_mem _ hp
      obtain ⟨⟨q1, q2⟩, hq, hqe⟩ := List.mem_map.mp hk
      dsimp at hqe
      subst hqe
      exact ⟨q2, hq⟩
    · rintro ⟨pd, hpd⟩
      have hk : i ∈ stF.entryRows.map Prod.fst := by
        rw [hwinvF.rowsKeys]
        exact List.mem_map_of_mem (f := Prod.fst) hpd
      obtain ⟨p, hp, hpe⟩ := List.mem_map.mp hk
      refine ⟨p.2, ?_, ?_⟩
      · rw [hent]
        exact List.mem_map_of_mem _ hp
      · rw [(hwinvF.rowsOK p hp).1, hpe]
  · obtain ⟨hcL, _⟩ :=
      traverseDescendants_ok_inv cfg repo locale roots tgts fuelL summaryL stL hl
    obtain ⟨_, _, hqB, hC⟩ :=
      crawlLoop_main cfg repo locale tgts roots fuelL _ stL
        (initScanState_inv cfg repo locale roots) hcL
    intro i d hdisc
    induction hdisc with
    | root hi =>
      rename_i j
      have hq : (j, 0) ∈ (initScanState roots).queue :=
        List.mem_map.mpr ⟨j, hi, rfl⟩
      exact hqB _ hq
    | child hu hfe hex hdlt hvmem ih =>
      rename_i u d₀ e v
      obtain ⟨pu, hpu, hpM⟩ := ih
      obtain ⟨pv, hpv, hpvM⟩ :=
        hC u pu hpM (List.not_mem_nil _) e hfe hex (lt_of_le_of_lt hpu hdlt) v hvmem
      exact ⟨pv, by omega, hpvM⟩

/-- Configuration of the completion-race crawl: nothing excluded, no assets,
depth limit 3, two workers per wave. -/
def raceCfg : CrawlConfig :=
  { excludedContentTypes := [], includeAssetsByDefault := false,
    maxTraversalDepth := 3, requestConcurrency := 2 }

/-- Root r1 of the race repository: links a and b. -/
def raceEntryR1 : CrawlEntry :=
  { contentType := some "page"
    fields := [("body", [("en", JVal.arr [JVal.entryLink "a", JVal.entryLink "b"])])]
    tags := [] }

/-- Root r2 of the race repository: links c. -/
def raceEntryR2 : CrawlEntry :=
  { contentType := some "page"
    fields := [("body", [("en", JVal.entryLink "c")])]
    tags := [] }

/-- Entry a: links k, pushing k one wave behind c. -/
def raceEntryA : CrawlEntry :=
  { contentType := some "page"
    fields := [("l", [("en", JVal.entryLink "k")])]
    tags := [] }

/-- Entry b: a leaf. -/
def raceEntryB : CrawlEntry :=
  { contentType := some "page", fields := [], tags := [] }

/-- Entry c, reached at depth 1: links x. -/
def raceEntryC : CrawlEntry :=
  { contentType := some "page"
    fields := [("l", [("en", JVal.entryLink "x")])]
    tags := [] }

/-- Entry k, reached at depth 2: links x too. -/
def raceEntryK : CrawlEntry :=
  { contentType := some "page"
    fields := [("l", [("en", JVal.entryLink "x")])]
    tags := [] }

/-- Entry x, the shared child of c and k. -/
def raceEntryX : CrawlEntry :=
  { contentType := some "page", fields := [], tags := [] }

/-- Repository of the completion-race crawl. One wave ends up holding
(c, 1) and (k, 2) — the queue straddles a depth boundary — and both c and k
link the not-yet-visited x. -/
def raceRepo : Repo :=
  { entries := fun i =>
      if i = "r1" then some raceEntryR1
      else if i = "r2" then some raceEntryR2
      else if i = "a" then some raceEntryA
      else if i = "b" then some raceEntryB
      else if i = "c" then some raceEntryC
      else if i = "k" then some raceEntryK
      else if i = "x" then some raceEntryX
      else none
    assets := fun _ => none }

/-- Completion schedule in which wave 2 — the wave holding (c, 1) and
(k, 2) — completes in reverse order: k's fetch resolves before c's. Every
other wave completes in batch order, and every wave's order is a
permutation of its claims. -/
def raceSched : Nat → List (String × Nat) → List (String × Nat) :=
  fun w l => if w = 2 then l.reverse else l

lemma raceSched_perm : ∀ (w : Nat) (l : List (String × Nat)),
    (raceSched w l).Perm l := by
  intro w l
  unfold raceSched
  by_cases hw : w = 2
  · rw [if_pos hw]
    exact List.reverse_perm l
  · rw [if_neg hw]

/-- The race crawl run. -/
def raceRun : CrawlOutcome :=
  traverseDescendantsSched raceCfg raceRepo "en" ["r1", "r2"] ["t"] raceSched 8

/-- Summary of the race run. -/
def raceSummary : ScanSummary :=
  match raceRun with
  | CrawlOutcome.ok s _ => s
  | _ => { roots := [], targetTagIds := [], entries := [], assets := [] }

/-- Final engine state of the race run. -/
def raceFinalState : ScanState :=
  match raceRun with
  | CrawlOutcome.ok _ st => st
  | _ => initScanState []

/-- The same crawl under batch-order completion. -/
def linRun : CrawlOutcome :=
  traverseDescendants raceCfg raceRepo "en" ["r1", "r2"] ["t"] 8

/-- Summary of the batch-order run. -/
def linSummary : ScanSummary :=
  match linRun with
  | CrawlOutcome.ok s _ => s
  | _ => { roots := [], targetTagIds := [], entries := [], assets := [] }

/-- Final engine state of the batch-order run. -/
def linFinalState : ScanState :=
  match linRun with
  | CrawlOutcome.ok _ st => st
  | _ => initScanState []

/-- C7 counterexample: the claim that a record's first-discovered depth
equals its minimum depth from the roots fails under a genuine
fetch-completion order. In the wave holding (c, 1) and (k, 2) — both
linking the unvisited x — k's fetch resolving first enqueues (x, 3) before
(x, 2), so the visited set claims x at depth 3 even though x is
discoverable at depth 2, the depth the batch-order completion of the very
same crawl records. -/
theorem crawl_min_depth_counterexample :
    (∀ (w : Nat) (l : List (String × Nat)), (raceSched w l).Perm l) ∧
    Discoverable raceCfg raceRepo "en" ["r1", "r2"] "x" 2 ∧
    ("x", 3) ∈ raceFinalState.processedD ∧
    (∀ p ∈ raceFinalState.processedD, p.1 = "x" → p.2 = 3) ∧
    ("x", 2) ∈ linFinalState.processedD := by
  refine ⟨raceSched_perm, ?_, ?_, ?_, ?_⟩
  · have h1 : Discoverable raceCfg raceRepo "en" ["r1", "r2"] "c" 1 :=
      Discoverable.child (u := "r2") (d := 0) (e := raceEntryR2) (v := "c")
        (Discoverable.root (i := "r2") (by decide)) rfl (by decide) (by decide)
        (by decide)
    exact Discoverable.child (u := "c") (d := 1) (e := raceEntryC) (v := "x") h1
      rfl (by decide) (by decide) (by decide)
  · decide
  · decide
  · decide

/-- Concrete instantiation of crawl_dedup_depth_all_orders on the race
crawl: the reversed-wave schedule is a permutation schedule, the race run
and the batch-order run both complete, and the dedup, discoverable-depth
and batch-order minimum-depth conclusions follow. -/
theorem crawl_dedup_depth_all_orders_witness :
    (∀ (w : Nat) (l : List (String × Nat)), (raceSched w l).Perm l) ∧
    traverseDescendantsSched raceCfg raceRepo "en" ["r1", "r2"] ["t"] raceSched 8 =
      CrawlOutcome.ok raceSummary raceFinalState ∧
    traverseDescendants raceCfg raceRepo "en" ["r1", "r2"] ["t"] 8 =
      CrawlOutcome.ok linSummary linFinalState ∧
    ((raceSummary.entries.map (fun r => r.id)).Nodup ∧
     (∀ i pd, (i, pd) ∈ raceFinalState.processedD →
       Discoverable raceCfg raceRepo "en" ["r1", "r2"] i pd ∧
       pd ≤ raceCfg.maxTraversalDepth) ∧
     (∀ i pd pd', (i, pd) ∈ raceFinalState.processedD →
       (i, pd') ∈ raceFinalState.processedD → pd = pd') ∧
     (∀ i, (∃ r ∈ raceSummary.entries, r.id = i) ↔
       ∃ pd, (i, pd) ∈ raceFinalState.processedD) ∧
     (∀ i d, Discoverable raceCfg raceRepo "en" ["r1", "r2"] i d →
       ∃ pd, pd ≤ d ∧ (i, pd) ∈ linFinalState.processedD)) :=
  ⟨raceSched_perm, rfl, rfl,
    crawl_dedup_depth_all_orders raceCfg raceRepo "en" ["r1", "r2"] ["t"] raceSched 8 8
      raceSummary linSummary raceFinalState linFinalState raceSched_perm rfl rfl⟩
